import Mathlib

/-!
# Verification of the `erasure-isa-l` erasure-coding engine

This file embeds the Rust module `src/erasure.rs` (the `ErasureCode` engine) in
Lean 4 and proves the specification claims about it.

The engine delegates GF(2^8) scalar arithmetic, matrix inversion, encoding-matrix
generation and the batch byte-block transforms to the external `isa-l` C library
(wrapped by `src/bind.rs`).  Those primitives are not part of this repository's
sources; they are modelled here from the specification's contracts (spec §4.1,
§6 and the glossary), and each such definition carries a doc comment saying so.
All remaining definitions are direct translations of the Rust code in
`src/erasure.rs`.

Bytes are modelled as `Nat` values below 256; byte buffers as `List Nat`.
-/

set_option maxRecDepth 100000

namespace ErasureIsal

/-! ## GF(2^8) scalar arithmetic

Modelled from the spec (glossary): "GF(2^8): 256-element finite field for byte
arithmetic; addition is XOR; multiplication follows a fixed irreducible
polynomial."  The fixed polynomial of the external isa-l primitives is
x^8 + x^4 + x^3 + x^2 + 1 (0x11d); this choice is validated below against the
byte constants that the repository's own `make_decode_matrix` unit test pins
down (`expected_decode_matrix` of `src/erasure.rs`, test module). -/

/-- Multiplication by the monomial x in GF(2^8) modulo 0x11d: shift left and,
if the degree-8 bit appeared, reduce by the polynomial tail 0x1d. -/
def xtime (a : Nat) : Nat := ((a * 2) % 256) ^^^ (if 128 ≤ a then 0x1d else 0)

/-- Shift-and-add product accumulator: 8 rounds over the bits of `b`. -/
def gfMulAux : Nat → Nat → Nat → Nat
  | 0, _, _ => 0
  | n + 1, a, b => (if b % 2 = 1 then a else 0) ^^^ gfMulAux n (xtime a) (b / 2)

/-- Modelled from the spec: the external scalar multiply `gf::mul`
(`scalar_mul(a,b) -> product` in GF(2^8), spec §6).  Arguments are reduced to
bytes, as the external primitive receives `unsigned char` values. -/
def gf.mul (a b : Nat) : Nat := gfMulAux 8 (a % 256) (b % 256)

/-- The powers of x in GF(2^8)/0x11d: `gfExpTable[i] = x^i`.  Internal proof
device; its correctness relative to `xtime` is established by lemmas below. -/
def gfExpTable : List Nat :=
  [1, 2, 4, 8, 16, 32, 64, 128, 29, 58, 116, 232, 205, 135, 19, 38, 76, 152,
   45, 90, 180, 117, 234, 201, 143, 3, 6, 12, 24, 48, 96, 192, 157, 39, 78,
   156, 37, 74, 148, 53, 106, 212, 181, 119, 238, 193, 159, 35, 70, 140, 5,
   10, 20, 40, 80, 160, 93, 186, 105, 210, 185, 111, 222, 161, 95, 190, 97,
   194, 153, 47, 94, 188, 101, 202, 137, 15, 30, 60, 120, 240, 253, 231, 211,
   187, 107, 214, 177, 127, 254, 225, 223, 163, 91, 182, 113, 226, 217, 175,
   67, 134, 17, 34, 68, 136, 13, 26, 52, 104, 208, 189, 103, 206, 129, 31, 62,
   124, 248, 237, 199, 147, 59, 118, 236, 197, 151, 51, 102, 204, 133, 23, 46,
   92, 184, 109, 218, 169, 79, 158, 33, 66, 132, 21, 42, 84, 168, 77, 154, 41,
   82, 164, 85, 170, 73, 146, 57, 114, 228, 213, 183, 115, 230, 209, 191, 99,
   198, 145, 63, 126, 252, 229, 215, 179, 123, 246, 241, 255, 227, 219, 171,
   75, 150, 49, 98, 196, 149, 55, 110, 220, 165, 87, 174, 65, 130, 25, 50,
   100, 200, 141, 7, 14, 28, 56, 112, 224, 221, 167, 83, 166, 81, 162, 89,
   178, 121, 242, 249, 239, 195, 155, 43, 86, 172, 69, 138, 9, 18, 36, 72,
   144, 61, 122, 244, 245, 247, 243, 251, 235, 203, 139, 11, 22, 44, 88, 176,
   125, 250, 233, 207, 131, 27, 54, 108, 216, 173, 71, 142]

/-- Discrete logarithms base x in GF(2^8)/0x11d: `gfLogTable[a] = log_x a` for
`1 ≤ a ≤ 255` (the entry at 0 is unused padding). -/
def gfLogTable : List Nat :=
  [0, 0, 1, 25, 2, 50, 26, 198, 3, 223, 51, 238, 27, 104, 199, 75, 4, 100,
   224, 14, 52, 141, 239, 129, 28, 193, 105, 248, 200, 8, 76, 113, 5, 138,
   101, 47, 225, 36, 15, 33, 53, 147, 142, 218, 240, 18, 130, 69, 29, 181,
   194, 125, 106, 39, 249, 185, 201, 154, 9, 120, 77, 228, 114, 166, 6, 191,
   139, 98, 102, 221, 48, 253, 226, 152, 37, 179, 16, 145, 34, 136, 54, 208,
   148, 206, 143, 150, 219, 189, 241, 210, 19, 92, 131, 56, 70, 64, 30, 66,
   182, 163, 195, 72, 126, 110, 107, 58, 40, 84, 250, 133, 186, 61, 202, 94,
   155, 159, 10, 21, 121, 43, 78, 212, 229, 172, 115, 243, 167, 87, 7, 112,
   192, 247, 140, 128, 99, 13, 103, 74, 222, 237, 49, 197, 254, 24, 227, 165,
   153, 119, 38, 184, 180, 124, 17, 68, 146, 217, 35, 32, 137, 46, 55, 63,
   209, 91, 149, 188, 207, 205, 144, 135, 151, 178, 220, 252, 190, 97, 242,
   86, 211, 171, 20, 42, 93, 158, 132, 60, 57, 83, 71, 109, 65, 162, 31, 45,
   67, 216, 183, 123, 164, 118, 196, 23, 73, 236, 127, 12, 111, 246, 108, 161,
   59, 82, 41, 157, 85, 170, 251, 96, 134, 177, 187, 204, 62, 90, 203, 89, 95,
   176, 156, 169, 160, 81, 11, 245, 22, 235, 122, 117, 44, 215, 79, 174, 213,
   233, 230, 231, 173, 232, 116, 214, 244, 234, 168, 80, 88, 175]

/-- `gfExp i = x^i` in GF(2^8) (the exponent is cyclic with period 255). -/
def gfExp (i : Nat) : Nat := gfExpTable.getD (i % 255) 0

/-- `gfLog a`: discrete logarithm of a nonzero byte. -/
def gfLog (a : Nat) : Nat := gfLogTable.getD a 0

/-- Modelled from the spec: the external scalar inverse `gf::inv`
(`scalar_inv(a) -> b` such that `a·b = 1`, undefined for `a = 0`, spec §6; the
external primitive maps 0 to 0, and we adopt that value). -/
def gf.inv (a : Nat) : Nat := if a % 256 = 0 then 0 else gfExp (255 - gfLog (a % 256))

theorem xtime_lt {a : Nat} (_ : a < 256) : xtime a < 256 := by
  have h1 : (a * 2) % 256 < 256 := Nat.mod_lt _ (by norm_num)
  have h2 : (if 128 ≤ a then 0x1d else 0) < 256 := by split <;> norm_num
  exact Nat.xor_lt_two_pow (n := 8) h1 h2

theorem xtime_zero : xtime 0 = 0 := by decide

theorem mul_two_xor (x y : Nat) : (x ^^^ y) * 2 = x * 2 ^^^ y * 2 := by
  have h : ∀ z : Nat, z * 2 = z <<< 1 := fun z => by
    rw [Nat.shiftLeft_eq, pow_one]
  rw [h, h, h]
  apply Nat.eq_of_testBit_eq
  intro i
  simp [Nat.testBit_shiftLeft, Nat.testBit_xor, Bool.and_xor_distrib_left]

theorem xor_mod_two_pow (x y n : Nat) : (x ^^^ y) % 2 ^ n = x % 2 ^ n ^^^ y % 2 ^ n := by
  apply Nat.eq_of_testBit_eq
  intro i
  simp [Nat.testBit_mod_two_pow, Nat.testBit_xor, Bool.and_xor_distrib_left]

theorem mod_256_xor (x y : Nat) : (x ^^^ y) % 256 = x % 256 ^^^ y % 256 := by
  have h := xor_mod_two_pow x y 8
  norm_num at h
  exact h

theorem le_128_iff_testBit {z : Nat} (hz : z < 256) : 128 ≤ z ↔ z.testBit 7 = true := by
  rw [Nat.testBit_to_div_mod]
  simp only [decide_eq_true_eq]
  have h : (2 : Nat) ^ 7 = 128 := by norm_num
  rw [h]
  omega

theorem nat_xor_left_comm (x y z : Nat) : x ^^^ (y ^^^ z) = y ^^^ (x ^^^ z) := by
  rw [← Nat.xor_assoc, Nat.xor_comm x y, Nat.xor_assoc]

theorem xtime_xor {a b : Nat} (ha : a < 256) (hb : b < 256) :
    xtime (a ^^^ b) = xtime a ^^^ xtime b := by
  have hab : a ^^^ b < 256 := Nat.xor_lt_two_pow (n := 8) ha hb
  have hbit : (a ^^^ b).testBit 7 = (a.testBit 7 ^^ b.testBit 7) := Nat.testBit_xor a b 7
  have hca := le_128_iff_testBit ha
  have hcb := le_128_iff_testBit hb
  have hcab := le_128_iff_testBit hab
  unfold xtime
  rw [mul_two_xor, mod_256_xor]
  rcases ha7 : a.testBit 7 <;> rcases hb7 : b.testBit 7
  · have hna : ¬ 128 ≤ a := by rw [hca]; simp [ha7]
    have hnb : ¬ 128 ≤ b := by rw [hcb]; simp [hb7]
    have hnab : ¬ 128 ≤ a ^^^ b := by rw [hcab]; simp [hbit, ha7, hb7]
    rw [if_neg hna, if_neg hnb, if_neg hnab]
    simp
  · have hna : ¬ 128 ≤ a := by rw [hca]; simp [ha7]
    have hpb : 128 ≤ b := by rw [hcb]; exact hb7
    have hpab : 128 ≤ a ^^^ b := by rw [hcab]; simp [hbit, ha7, hb7]
    rw [if_neg hna, if_pos hpb, if_pos hpab]
    simp [Nat.xor_assoc]
  · have hpa : 128 ≤ a := by rw [hca]; exact ha7
    have hnb : ¬ 128 ≤ b := by rw [hcb]; simp [hb7]
    have hpab : 128 ≤ a ^^^ b := by rw [hcab]; simp [hbit, ha7, hb7]
    rw [if_pos hpa, if_neg hnb, if_pos hpab]
    simp [Nat.xor_assoc, Nat.xor_comm, nat_xor_left_comm]
  · have hpa : 128 ≤ a := by rw [hca]; exact ha7
    have hpb : 128 ≤ b := by rw [hcb]; exact hb7
    have hnab : ¬ 128 ≤ a ^^^ b := by rw [hcab]; simp [hbit, ha7, hb7]
    rw [if_pos hpa, if_pos hpb, if_neg hnab]
    simp [Nat.xor_assoc, Nat.xor_comm, nat_xor_left_comm, Nat.xor_cancel_left]

theorem gfExpTable_xtime : ∀ i < 255, xtime (gfExpTable.getD i 0) = gfExpTable.getD ((i + 1) % 255) 0 := by
  decide

theorem gfExpTable_lt_ne : ∀ i < 255, gfExpTable.getD i 0 < 256 ∧ gfExpTable.getD i 0 ≠ 0 := by
  decide

theorem gfLog_gfExpTable : ∀ i < 255, gfLog (gfExpTable.getD i 0) = i := by
  decide

theorem gfExp_gfLog : ∀ a < 256, a ≠ 0 → gfLog a < 255 ∧ gfExp (gfLog a) = a := by
  decide

theorem gfExp_lt (i : Nat) : gfExp i < 256 :=
  (gfExpTable_lt_ne (i % 255) (Nat.mod_lt _ (by norm_num))).1

theorem gfExp_ne_zero (i : Nat) : gfExp i ≠ 0 :=
  (gfExpTable_lt_ne (i % 255) (Nat.mod_lt _ (by norm_num))).2

theorem gfExp_zero : gfExp 0 = 1 := rfl

theorem gfExp_succ (i : Nat) : gfExp (i + 1) = xtime (gfExp i) := by
  unfold gfExp
  have h : (i + 1) % 255 = (i % 255 + 1) % 255 := by
    conv_lhs => rw [Nat.add_mod]
  rw [h, ← gfExpTable_xtime (i % 255) (Nat.mod_lt _ (by norm_num))]

theorem gfExp_eq_iterate (i : Nat) : gfExp i = xtime^[i] 1 := by
  induction i with
  | zero => rfl
  | succ n ih => rw [gfExp_succ, ih, Function.iterate_succ_apply']

theorem iterate_xtime_lt {a : Nat} (ha : a < 256) (i : Nat) : xtime^[i] a < 256 := by
  induction i generalizing a with
  | zero => exact ha
  | succ n ih => rw [Function.iterate_succ_apply]; exact ih (xtime_lt ha)

theorem iterate_xtime_zero (i : Nat) : xtime^[i] 0 = 0 := by
  induction i with
  | zero => rfl
  | succ n ih => rw [Function.iterate_succ_apply, xtime_zero, ih]

theorem iterate_xtime_xor {a b : Nat} (ha : a < 256) (hb : b < 256) (i : Nat) :
    xtime^[i] (a ^^^ b) = xtime^[i] a ^^^ xtime^[i] b := by
  induction i generalizing a b with
  | zero => rfl
  | succ n ih =>
    rw [Function.iterate_succ_apply, Function.iterate_succ_apply,
      Function.iterate_succ_apply, xtime_xor ha hb]
    exact ih (xtime_lt ha) (xtime_lt hb)

theorem xtime_iterate_255 {b : Nat} (hb : b < 256) : xtime^[255] b = b := by
  by_cases hz : b = 0
  · rw [hz, iterate_xtime_zero]
  · obtain ⟨hlog, hexp⟩ := gfExp_gfLog b hb hz
    have h1 : xtime^[255] 1 = 1 := by
      rw [← gfExp_eq_iterate]
      rfl
    calc xtime^[255] b = xtime^[255] (xtime^[gfLog b] 1) := by rw [← gfExp_eq_iterate, hexp]
      _ = xtime^[255 + gfLog b] 1 := (Function.iterate_add_apply _ _ _ _).symm
      _ = xtime^[gfLog b + 255] 1 := by rw [Nat.add_comm]
      _ = xtime^[gfLog b] (xtime^[255] 1) := Function.iterate_add_apply _ _ _ _
      _ = xtime^[gfLog b] 1 := by rw [h1]
      _ = b := by rw [← gfExp_eq_iterate, hexp]

theorem xtime_iterate_mod {b : Nat} (hb : b < 256) (i : Nat) :
    xtime^[i] b = xtime^[i % 255] b := by
  conv_lhs => rw [← Nat.div_add_mod i 255]
  generalize i / 255 = q
  induction q with
  | zero => simp
  | succ n ih =>
    have h : 255 * (n + 1) + i % 255 = 255 * n + i % 255 + 255 := by ring
    rw [h, Function.iterate_add_apply, xtime_iterate_255 hb, ih]

theorem gfMulAux_lt {a : Nat} (ha : a < 256) (n b : Nat) : gfMulAux n a b < 256 := by
  induction n generalizing a b with
  | zero => norm_num [gfMulAux]
  | succ n ih =>
    unfold gfMulAux
    refine Nat.xor_lt_two_pow (n := 8) ?_ (ih (xtime_lt ha) _)
    split <;> omega

theorem gfMulAux_zero_left (n b : Nat) : gfMulAux n 0 b = 0 := by
  induction n generalizing b with
  | zero => rfl
  | succ n ih => unfold gfMulAux; rw [xtime_zero, ih]; split <;> rfl

theorem gfMulAux_zero_right (n a : Nat) : gfMulAux n a 0 = 0 := by
  induction n generalizing a with
  | zero => rfl
  | succ n ih => unfold gfMulAux; norm_num; exact ih _

theorem gfMulAux_one_left : ∀ b < 256, gfMulAux 8 1 b = b := by
  decide

theorem gfMulAux_xtime {a : Nat} (ha : a < 256) (n b : Nat) :
    gfMulAux n (xtime a) b = xtime (gfMulAux n a b) := by
  induction n generalizing a b with
  | zero => simp [gfMulAux, xtime_zero]
  | succ n ih =>
    unfold gfMulAux
    rw [ih (xtime_lt ha)]
    have h1 : (if b % 2 = 1 then a else 0) < 256 := by split <;> omega
    rw [xtime_xor h1 (gfMulAux_lt (xtime_lt ha) n (b / 2))]
    congr 1
    split <;> simp [xtime_zero]

theorem gfMulAux_iterate (i : Nat) : ∀ b < 256, gfMulAux 8 (xtime^[i] 1) b = xtime^[i] b := by
  induction i with
  | zero => exact gfMulAux_one_left
  | succ n ih =>
    intro b hb
    rw [Function.iterate_succ_apply', Function.iterate_succ_apply',
      gfMulAux_xtime (iterate_xtime_lt (by norm_num) n), ih b hb]

theorem gf_mul_eq_iterate {a b : Nat} (ha : a < 256) (hne : a ≠ 0) (hb : b < 256) :
    gf.mul a b = xtime^[gfLog a] b := by
  obtain ⟨hlog, hexp⟩ := gfExp_gfLog a ha hne
  unfold gf.mul
  rw [Nat.mod_eq_of_lt ha, Nat.mod_eq_of_lt hb]
  conv_lhs => rw [← hexp, gfExp_eq_iterate]
  exact gfMulAux_iterate _ b hb

theorem gf_mul_lt (a b : Nat) : gf.mul a b < 256 :=
  gfMulAux_lt (Nat.mod_lt _ (by norm_num)) 8 (b % 256)

theorem gf_mul_zero_left (b : Nat) : gf.mul 0 b = 0 := gfMulAux_zero_left 8 _

theorem gf_mul_zero_right (a : Nat) : gf.mul a 0 = 0 := gfMulAux_zero_right 8 _

theorem gf_mul_one_left {b : Nat} (hb : b < 256) : gf.mul 1 b = b := by
  unfold gf.mul
  rw [Nat.mod_eq_of_lt hb]
  exact gfMulAux_one_left b hb

theorem gfLog_gfExp (s : Nat) : gfLog (gfExp s) = s % 255 :=
  gfLog_gfExpTable (s % 255) (Nat.mod_lt _ (by norm_num))

theorem gf_exp_char {a b : Nat} (ha : a < 256) (hb : b < 256) (hna : a ≠ 0) (hnb : b ≠ 0) :
    gf.mul a b = gfExp (gfLog a + gfLog b) := by
  obtain ⟨hlogb, hexpb⟩ := gfExp_gfLog b hb hnb
  rw [gf_mul_eq_iterate ha hna hb]
  conv_lhs => rw [← hexpb, gfExp_eq_iterate, ← Function.iterate_add_apply]
  rw [← gfExp_eq_iterate]

theorem gf_mul_comm {a b : Nat} (ha : a < 256) (hb : b < 256) : gf.mul a b = gf.mul b a := by
  by_cases hna : a = 0
  · rw [hna, gf_mul_zero_left, gf_mul_zero_right]
  by_cases hnb : b = 0
  · rw [hnb, gf_mul_zero_left, gf_mul_zero_right]
  rw [gf_exp_char ha hb hna hnb, gf_exp_char hb ha hnb hna, Nat.add_comm]

theorem gf_mul_ne_zero {a b : Nat} (ha : a < 256) (hb : b < 256) (hna : a ≠ 0) (hnb : b ≠ 0) :
    gf.mul a b ≠ 0 := by
  rw [gf_exp_char ha hb hna hnb]
  exact gfExp_ne_zero _

theorem gf_mul_assoc {a b c : Nat} (ha : a < 256) (hb : b < 256) (hc : c < 256) :
    gf.mul (gf.mul a b) c = gf.mul a (gf.mul b c) := by
  by_cases hna : a = 0
  · rw [hna, gf_mul_zero_left, gf_mul_zero_left, gf_mul_zero_left]
  by_cases hnb : b = 0
  · rw [hnb, gf_mul_zero_right, gf_mul_zero_left, gf_mul_zero_right]
  by_cases hnc : c = 0
  · rw [hnc, gf_mul_zero_right, gf_mul_zero_right, gf_mul_zero_right]
  have hab := gf_exp_char ha hb hna hnb
  rw [hab, gf_mul_eq_iterate (gfExp_lt _) (gfExp_ne_zero _) hc, gfLog_gfExp,
    ← xtime_iterate_mod hc, gf_mul_eq_iterate ha hna (gf_mul_lt b c),
    gf_mul_eq_iterate hb hnb hc, ← Function.iterate_add_apply]

theorem gf_mul_xor {a b c : Nat} (ha : a < 256) (hb : b < 256) (hc : c < 256) :
    gf.mul a (b ^^^ c) = gf.mul a b ^^^ gf.mul a c := by
  by_cases hna : a = 0
  · rw [hna, gf_mul_zero_left, gf_mul_zero_left, gf_mul_zero_left]
    rfl
  have hbc : b ^^^ c < 256 := Nat.xor_lt_two_pow (n := 8) hb hc
  rw [gf_mul_eq_iterate ha hna hbc, gf_mul_eq_iterate ha hna hb,
    gf_mul_eq_iterate ha hna hc]
  exact iterate_xtime_xor hb hc _

theorem gf_mul_one_right {a : Nat} (ha : a < 256) : gf.mul a 1 = a := by
  rw [gf_mul_comm ha (by norm_num), gf_mul_one_left ha]

theorem gf_inv_lt (a : Nat) : gf.inv a < 256 := by
  unfold gf.inv
  split
  · norm_num
  · exact gfExp_lt _

theorem gf_mul_inv_cancel {a : Nat} (ha : a < 256) (hna : a ≠ 0) :
    gf.mul a (gf.inv a) = 1 := by
  obtain ⟨hlog, hexp⟩ := gfExp_gfLog a ha hna
  have hmod : a % 256 = a := Nat.mod_eq_of_lt ha
  unfold gf.inv
  rw [hmod, if_neg hna]
  rw [gf_mul_eq_iterate ha hna (gfExp_lt _), gfExp_eq_iterate,
    ← Function.iterate_add_apply]
  have h255 : gfLog a + (255 - gfLog a) = 255 := by omega
  rw [h255, ← gfExp_eq_iterate]
  rfl

/-! ## The field `GF` of bytes

A wrapper packaging a byte with its bound, carrying the field structure that the
scalar operations above induce.  This is the algebraic backbone used to reason
about the matrix computations. -/

/-- A GF(2^8) field element: a byte value with its bound. -/
structure GF where
  val : Nat
  lt : val < 256
deriving DecidableEq

theorem GF.val_injective : ∀ {a b : GF}, a.val = b.val → a = b := by
  rintro ⟨a, ha⟩ ⟨b, hb⟩ h
  simpa using h

instance : Zero GF := ⟨⟨0, by norm_num⟩⟩

instance : One GF := ⟨⟨1, by norm_num⟩⟩

instance : Add GF := ⟨fun a b => ⟨a.val ^^^ b.val, Nat.xor_lt_two_pow (n := 8) a.lt b.lt⟩⟩

instance : Neg GF := ⟨fun a => a⟩

instance : Mul GF := ⟨fun a b => ⟨gf.mul a.val b.val, gf_mul_lt _ _⟩⟩

instance : Inv GF := ⟨fun a => ⟨gf.inv a.val, gf_inv_lt _⟩⟩

@[simp] theorem GF.add_val (a b : GF) : (a + b).val = a.val ^^^ b.val := rfl

@[simp] theorem GF.mul_val (a b : GF) : (a * b).val = gf.mul a.val b.val := rfl

@[simp] theorem GF.zero_val : (0 : GF).val = 0 := rfl

@[simp] theorem GF.one_val : (1 : GF).val = 1 := rfl

@[simp] theorem GF.neg_eq (a : GF) : -a = a := rfl

instance : CommRing GF where
  add_assoc a b c := GF.val_injective (Nat.xor_assoc _ _ _)
  zero_add a := GF.val_injective (Nat.zero_xor _)
  add_zero a := GF.val_injective (Nat.xor_zero _)
  add_comm a b := GF.val_injective (Nat.xor_comm _ _)
  mul_assoc a b c := GF.val_injective (gf_mul_assoc a.lt b.lt c.lt)
  one_mul a := GF.val_injective (gf_mul_one_left a.lt)
  mul_one a := GF.val_injective (gf_mul_one_right a.lt)
  left_distrib a b c := GF.val_injective (gf_mul_xor a.lt b.lt c.lt)
  right_distrib a b c := GF.val_injective (by
    show gf.mul (a.val ^^^ b.val) c.val = gf.mul a.val c.val ^^^ gf.mul b.val c.val
    have hab : a.val ^^^ b.val < 256 := Nat.xor_lt_two_pow (n := 8) a.lt b.lt
    rw [gf_mul_comm hab c.lt, gf_mul_xor c.lt a.lt b.lt, gf_mul_comm c.lt a.lt,
      gf_mul_comm c.lt b.lt])
  mul_comm a b := GF.val_injective (gf_mul_comm a.lt b.lt)
  zero_mul a := GF.val_injective (gf_mul_zero_left _)
  mul_zero a := GF.val_injective (gf_mul_zero_right _)
  neg_add_cancel a := GF.val_injective (Nat.xor_self _)
  nsmul := nsmulRec
  zsmul := zsmulRec

theorem GF.val_ne_zero {a : GF} (ha : a ≠ 0) : a.val ≠ 0 := by
  intro h
  exact ha (GF.val_injective h)

instance : Field GF where
  exists_pair_ne := ⟨0, 1, by decide⟩
  mul_inv_cancel a ha := GF.val_injective (gf_mul_inv_cancel a.lt (GF.val_ne_zero ha))
  inv_zero := GF.val_injective rfl
  nnqsmul := _
  qsmul := _

/-! ## Flat byte matrices and their `GF` interpretation

The Rust code stores matrices as flat row-major `Vec<u8>` buffers.  `matOfFlat`
reads such a buffer as a Mathlib matrix over `GF`; `flatOfMat` writes one. -/

def toGF (x : Nat) : GF := ⟨x % 256, Nat.mod_lt _ (by norm_num)⟩

theorem toGF_val {x : Nat} (hx : x < 256) : (toGF x).val = x := Nat.mod_eq_of_lt hx

theorem toGF_of_val (a : GF) : toGF a.val = a :=
  GF.val_injective (toGF_val a.lt)

def matOfFlat (l : List Nat) (rows cols : Nat) : Matrix (Fin rows) (Fin cols) GF :=
  Matrix.of fun i j => toGF (l.getD (i.val * cols + j.val) 0)

theorem matOfFlat_apply (l : List Nat) (rows cols : Nat) (i : Fin rows) (j : Fin cols) :
    matOfFlat l rows cols i j = toGF (l.getD (i.val * cols + j.val) 0) := rfl

def flatOfMat {rows cols : Nat} (M : Matrix (Fin rows) (Fin cols) GF) : List Nat :=
  (List.finRange rows).flatMap fun i => (List.finRange cols).map fun j => (M i j).val

theorem flatMap_length_const {α : Type} (l : List α) (f : α → List Nat) (c : Nat)
    (hf : ∀ a ∈ l, (f a).length = c) : (l.flatMap f).length = l.length * c := by
  induction l with
  | nil => simp
  | cons x xs ih =>
    rw [List.flatMap_cons, List.length_append, hf x (by simp),
      ih (fun a ha => hf a (by simp [ha])), List.length_cons]
    ring

theorem flatMap_getD {α : Type} (l : List α) (f : α → List Nat) (c : Nat)
    (hf : ∀ a ∈ l, (f a).length = c) (i : Nat) (hi : i < l.length) (j : Nat) (hj : j < c)
    (d : Nat) : (l.flatMap f).getD (i * c + j) d = (f (l.get ⟨i, hi⟩)).getD j d := by
  induction l generalizing i with
  | nil => simp at hi
  | cons x xs ih =>
    rw [List.flatMap_cons]
    cases i with
    | zero =>
      simp only [Nat.zero_mul, Nat.zero_add]
      rw [List.getD_append _ _ _ _ (by rw [hf x (by simp)]; exact hj)]
      rfl
    | succ n =>
      have hx : (f x).length = c := hf x (by simp)
      have harith : (n + 1) * c + j = (f x).length + (n * c + j) := by
        rw [hx]; ring
      rw [harith, List.getD_eq_getElem?_getD, List.getElem?_append,
        if_neg (by omega), Nat.add_sub_cancel_left, ← List.getD_eq_getElem?_getD]
      have hn : n < xs.length := by simpa using Nat.lt_of_succ_lt_succ (by simpa using hi)
      rw [ih (fun a ha => hf a (by simp [ha])) n hn]
      rfl

theorem flatOfMat_getD {rows cols : Nat} (M : Matrix (Fin rows) (Fin cols) GF)
    (i : Fin rows) (j : Fin cols) :
    (flatOfMat M).getD (i.val * cols + j.val) 0 = (M i j).val := by
  unfold flatOfMat
  rw [flatMap_getD _ _ cols (fun a _ => by simp) i.val (by simp) j.val (by simpa using j.isLt) 0]
  rw [List.get_finRange]
  have hlen : j.val <
      ((List.finRange cols).map fun j' => (M ⟨i.val, by simpa using i.isLt⟩ j').val).length := by
    simpa using j.isLt
  rw [List.getD_eq_getElem?_getD, List.getElem?_eq_getElem hlen]
  have hfr : (List.finRange cols)[j.val] = j := by
    apply Fin.ext
    simp [List.getElem_finRange]
  simp [hfr]

theorem matOfFlat_flatOfMat {rows cols : Nat} (M : Matrix (Fin rows) (Fin cols) GF) :
    matOfFlat (flatOfMat M) rows cols = M := by
  ext i j
  rw [matOfFlat_apply, flatOfMat_getD, toGF_of_val]

/-! ## Executable determinant, adjugate and the modelled matrix inverse -/

/-- Cofactor expansion along the first row; in characteristic 2 all sign factors
are 1.  Agrees with `Matrix.det` (`detL_eq_det`). -/
def detL : (n : Nat) → Matrix (Fin n) (Fin n) GF → GF
  | 0, _ => 1
  | n + 1, M => ∑ j : Fin (n + 1), M 0 j * detL n (M.submatrix Fin.succ j.succAbove)

theorem neg_one_GF : (-1 : GF) = 1 := rfl

theorem detL_eq_det : ∀ (n : Nat) (M : Matrix (Fin n) (Fin n) GF), detL n M = M.det
  | 0, M => by rw [Matrix.det_fin_zero]; rfl
  | n + 1, M => by
    rw [Matrix.det_succ_row_zero]
    unfold detL
    refine Finset.sum_congr rfl fun j _ => ?_
    rw [detL_eq_det n, neg_one_GF, one_pow, one_mul]

/-- Cofactor form of the adjugate, executable; agrees with `Matrix.adjugate`. -/
def adjL (n : Nat) (M : Matrix (Fin n) (Fin n) GF) : Matrix (Fin n) (Fin n) GF :=
  Matrix.of fun i j => detL n (M.updateRow j (Pi.single i 1))

theorem adjL_eq_adjugate (n : Nat) (M : Matrix (Fin n) (Fin n) GF) :
    adjL n M = M.adjugate := by
  ext i j
  rw [Matrix.adjugate_apply]
  exact detL_eq_det n _

/-- Modelled from the spec: the external matrix inverse `gf::invert_matrix`
(spec §6: `invert_matrix(in: n² bytes) -> (out: n² bytes, ok: bool)`, with
`ok=false` iff the input is singular, and on success `[input] x [output] = [I]`,
per the `src/bind.rs` contract).  Over the field GF(2^8) this is realised as:
fail exactly when the determinant vanishes, otherwise return det⁻¹ · adjugate,
which is the two-sided inverse. -/
def gf.invert_matrix (input : List Nat) (n : Nat) : Option (List Nat) :=
  if detL n (matOfFlat input n n) = 0 then none
  else some (flatOfMat ((detL n (matOfFlat input n n))⁻¹ • adjL n (matOfFlat input n n)))

theorem invert_matrix_none_iff {input : List Nat} {n : Nat} :
    gf.invert_matrix input n = none ↔ (matOfFlat input n n).det = 0 := by
  unfold gf.invert_matrix
  rw [← detL_eq_det]
  split <;> simp_all

theorem invert_matrix_some {input out : List Nat} {n : Nat}
    (h : gf.invert_matrix input n = some out) :
    matOfFlat input n n * matOfFlat out n n = 1 ∧
      matOfFlat out n n * matOfFlat input n n = 1 := by
  unfold gf.invert_matrix at h
  split at h
  · exact absurd h (by simp)
  · rename_i hd
    have hdet : (matOfFlat input n n).det ≠ 0 := by rwa [detL_eq_det] at hd
    have hout : matOfFlat out n n =
        (matOfFlat input n n).det⁻¹ • (matOfFlat input n n).adjugate := by
      have h2 := Option.some_injective _ h
      rw [← h2, matOfFlat_flatOfMat, adjL_eq_adjugate, detL_eq_det]
    constructor
    · rw [hout, Matrix.mul_smul, Matrix.mul_adjugate, smul_smul, inv_mul_cancel₀ hdet, one_smul]
    · rw [hout, Matrix.smul_mul, Matrix.adjugate_mul, smul_smul, inv_mul_cancel₀ hdet, one_smul]

/-! ## Encoding-matrix generators (external, modelled from the spec §4.1) -/

/-- Repeated GF(2^8) multiplication (powers of a field element). -/
def gf.pow (a : Nat) : Nat → Nat
  | 0 => 1
  | e + 1 => gf.mul a (gf.pow a e)

/-- One coefficient of the Reed-Solomon systematic matrix.  Modelled from the
spec (§4.1, §3 EncodingMatrix): rows `0..k` form the identity; parity row
`i ≥ k`, column `j` holds the field-generator power `2^(j·(i-k+1))` — the
Vandermonde construction documented in `src/bind.rs` ("2^{i*(j-k+1)}" with `i`
the column and `j` the row). -/
def rsMatrixEntry (k i j : Nat) : Nat :=
  if i < k then (if i = j then 1 else 0) else gf.pow 2 (j * (i - k + 1))

/-- Modelled from the spec: the external `gf::gen_rs_matrix` writing the `n·k`
Reed-Solomon coefficients row-major ("rows 0..k = identity; row i≥k, column j:
coefficient = a field-generator power sequence function of (i,j)", spec §4.1). -/
def gf.gen_rs_matrix (n k : Nat) : List Nat :=
  (List.range n).flatMap fun i => (List.range k).map fun j => rsMatrixEntry k i j

/-- One coefficient of the Cauchy systematic matrix.  Modelled from the spec
(§4.1): rows `0..k` form the identity; parity row `i ≥ k`, column `j` holds the
multiplicative inverse of the field sum of `i` and `j` (GF addition is XOR), the
row range `k..n` being disjoint from the column range `0..k`. -/
def cauchyMatrixEntry (k i j : Nat) : Nat :=
  if i < k then (if i = j then 1 else 0) else gf.inv (i ^^^ j)

/-- Modelled from the spec: the external `gf::gen_cauchy1_matrix` writing the
`n·k` Cauchy coefficients row-major (spec §4.1). -/
def gf.gen_cauchy1_matrix (n k : Nat) : List Nat :=
  (List.range n).flatMap fun i => (List.range k).map fun j => cauchyMatrixEntry k i j

/-! ## Batch GF primitives (external, modelled from the spec §6)

The spec specifies the outputs of `batch_transform` and `incremental_transform`
directly in terms of the underlying coefficients; the 32-byte-per-coefficient
expanded table is a deterministic encoding of the coefficients consumed only by
these primitives (spec §3 EncodeTable, §4.2).  We therefore model an expanded
table by the flat coefficient matrix it was expanded from. -/

/-- A byte block. -/
abbrev Block := List Nat

/-- Modelled from the spec: the external `ec::init_tables`
(`init_table(k, rows, coeffs) -> table`, spec §6); the table is represented by
its coefficients, see above. -/
def ec.init_tables (k rows : Nat) (a : List Nat) : List Nat := a

/-- Modelled from the spec: the external `ec::encode_data`
(`batch_transform`, spec §6: `output[r][p] = XOR over i of
mul(coeff[r][i], input[i][p])`, for all `rows` output blocks of `len` bytes,
reading the first `k` input blocks). -/
def ec.encode_data (len k rows : Nat) (gf_tbls : List Nat) (data : List Block) :
    List Block :=
  (List.range rows).map fun r =>
    (List.range len).map fun p =>
      (List.range k).foldl
        (fun acc i => acc ^^^ gf.mul (gf_tbls.getD (r * k + i) 0) ((data.getD i []).getD p 0)) 0

/-- Modelled from the spec: the external `ec::encode_data_update`
(`incremental_transform`, spec §6: `output[r][p] ^= mul(coeff[r][source_index],
input[p])` over the `rows` output blocks of `len` bytes). -/
def ec.encode_data_update (len k rows vec_i : Nat) (gf_tbls : List Nat)
    (data : Block) (code : List Block) : List Block :=
  (List.range rows).map fun r =>
    (List.range len).map fun p =>
      ((code.getD r []).getD p 0) ^^^ gf.mul (gf_tbls.getD (r * k + vec_i) 0) (data.getD p 0)

/-! ## The `ErasureCode` engine (translated from `src/erasure.rs`) -/

/-- The `Error` enum of `src/erasure.rs`. -/
inductive Error
  | TooManyErasures (erasures max_erasures : Nat)
  | InvalidArguments (msg : String)
  | InternalError (msg : String)
  | Other (msg : String)
deriving DecidableEq

/-- `fn make_table_from_matrix` (`src/erasure.rs`). -/
def make_table_from_matrix (matrix : List Nat) (cols rows : Nat) :
    Except Error (List Nat) :=
  if matrix.length ≠ cols * rows then
    .error (.InvalidArguments ("matrix length " ++ toString matrix.length ++
      " is not equal to col * row " ++ toString (cols * rows)))
  else
    .ok (ec.init_tables cols rows matrix)

/-- `struct ErasureCode` (`src/erasure.rs`).  The Rust fields `k`, `m` are
`i32` values converted from `NonZeroUsize` constructor arguments; they are
modelled as `Nat` (the conversions are the identity in the representable
range). -/
structure ErasureCode where
  k : Nat
  m : Nat
  encode_matrix : List Nat
  encode_gf_table : List Nat
deriving DecidableEq

/-- `enum CodeType` (`src/erasure.rs`). -/
inductive CodeType
  | ReedSolomon
  | Cauchy

/-- `struct DecodeTable` (`src/erasure.rs`). -/
structure DecodeTable where
  table : List Nat
deriving DecidableEq

namespace ErasureCode

/-- `fn new` (`src/erasure.rs`): build the encoding matrix and the encode
table over its parity rows.  The Rust function returns `Ok(Self {..})`
unconditionally; the `Except` wrapper lives in the two public constructors. -/
def new (source_num code_num : Nat) (code_type : CodeType) : ErasureCode :=
  let k := source_num
  let m := code_num
  let n := k + m
  let encode_matrix : List Nat :=
    match code_type with
    | .ReedSolomon => gf.gen_rs_matrix n k
    | .Cauchy => gf.gen_cauchy1_matrix n k
  let gf_table := ec.init_tables k m (encode_matrix.drop (k * k))
  { k := k, m := m, encode_matrix := encode_matrix, encode_gf_table := gf_table }

/-- `fn with_cauchy` (`src/erasure.rs`); the `NonZeroUsize` arguments are
modelled as `Nat` with positivity hypotheses at the call sites. -/
def with_cauchy (source_num code_num : Nat) : Except Error ErasureCode :=
  .ok (new source_num code_num .Cauchy)

/-- `fn with_reed_solomon` (`src/erasure.rs`). -/
def with_reed_solomon (source_num code_num : Nat) : Except Error ErasureCode :=
  .ok (new source_num code_num .ReedSolomon)

/-- `fn source_num`. -/
def source_num (self : ErasureCode) : Nat := self.k

/-- `fn code_num`. -/
def code_num (self : ErasureCode) : Nat := self.m

/-- `fn block_num`. -/
def block_num (self : ErasureCode) : Nat := self.k + self.m

/-- `fn check_encode_buffer` (`src/erasure.rs`).  The Rust code reads
`data.first().unwrap()` after having checked `data.len() == k`; for every
engine the constructors can build, `k ≥ 1`, so the `unwrap` cannot fire there
and is modelled by `headD`. -/
def check_encode_buffer (self : ErasureCode) (data code : List Block) :
    Except Error Unit :=
  if data.length ≠ self.source_num then
    .error (.InvalidArguments ("data length " ++ toString data.length ++
      " is not equal to source num " ++ toString self.k))
  else if code.length ≠ self.code_num then
    .error (.InvalidArguments ("code length " ++ toString code.length ++
      " is not equal to code number " ++ toString self.m))
  else
    let len := (data.headD []).length
    if data.any fun s => s.length ≠ len then
      .error (.InvalidArguments "source data block must be equal")
    else if code.any fun s => s.length ≠ len then
      .error (.InvalidArguments "code data block must be equal")
    else
      .ok ()

/-- `fn encode_impl` (`src/erasure.rs`): drive the batch primitive with the
encode table; the fresh `m` output blocks model the fully overwritten `code`
buffers.  (`data.first().unwrap()` is dead for `k ≥ 1` as above.) -/
def encode_impl (self : ErasureCode) (data : List Block) : List Block :=
  let blk_len := (data.headD []).length
  ec.encode_data blk_len self.k self.m self.encode_gf_table data

/-- `fn encode` (`src/erasure.rs`): validate, then overwrite the code blocks.
`.ok code'` models `Ok(())` with the code buffers mutated to `code'`. -/
def encode (self : ErasureCode) (data code : List Block) :
    Except Error (List Block) :=
  match self.check_encode_buffer data code with
  | .error e => .error e
  | .ok _ => .ok (self.encode_impl data)

/-- `fn encode_to_owned` (`src/erasure.rs`).  The Rust code reads
`data.as_ref().first().unwrap()` before any validation; on an empty data list
this `unwrap` panics, modelled by `none`. -/
def encode_to_owned (self : ErasureCode) (data : List Block) :
    Option (Except Error (List Block)) :=
  match data.head? with
  | none => none
  | some first =>
    let len := first.length
    let code := List.replicate self.code_num (List.replicate len 0)
    some (self.encode data code)

/-- `fn check_update` (`src/erasure.rs`). -/
def check_update (self : ErasureCode) (index : Nat) (delta : Block)
    (code : List Block) : Except Error Unit :=
  if index ≥ self.source_num then
    .error (.InvalidArguments ("index " ++ toString index ++
      " is out of range, max index is source number " ++ toString (self.source_num - 1)))
  else if code.length ≠ self.code_num then
    .error (.InvalidArguments ("code length " ++ toString code.length ++
      " is not equal to code number " ++ toString self.code_num))
  else if code.any fun s => s.length ≠ delta.length then
    .error (.InvalidArguments "code block length is not equal to delta length")
  else
    .ok ()

/-- `fn update` (`src/erasure.rs`): validate, then apply the incremental
multiply-accumulate primitive to every code block. -/
def update (self : ErasureCode) (index : Nat) (delta : Block)
    (code : List Block) : Except Error (List Block) :=
  match self.check_update index delta code with
  | .error e => .error e
  | .ok _ =>
    .ok (ec.encode_data_update delta.length self.k self.m index
      self.encode_gf_table delta code)

/-- `fn check_decode_buffer` (`src/erasure.rs`); identical checks to
`check_encode_buffer` with mutable borrows. -/
def check_decode_buffer (self : ErasureCode) (data code : List Block) :
    Except Error Unit :=
  if data.length ≠ self.k then
    .error (.InvalidArguments ("data length " ++ toString data.length ++
      " is not equal to source num " ++ toString self.k))
  else if code.length ≠ self.m then
    .error (.InvalidArguments ("code length " ++ toString code.length ++
      " is not equal to code number " ++ toString self.m))
  else
    let len := (data.headD []).length
    if data.any fun s => s.length ≠ len then
      .error (.InvalidArguments "source data block must be equal")
    else if code.any fun s => s.length ≠ len then
      .error (.InvalidArguments "code data block must be equal")
    else
      .ok ()

/-- `fn check_decode_erasure` (`src/erasure.rs`): sort and deduplicate the
erasure list in place, then validate the normalized list.  Rust sorts with
`sort_unstable` and removes consecutive duplicates with `dedup`; on a sorted
list this coincides with `List.dedup` of the sorted list (both produce the
unique duplicate-free sorted enumeration of the same elements).  The returned
list models the mutated `erasures` vector. -/
def check_decode_erasure (self : ErasureCode) (erasures : List Nat) :
    Except Error (List Nat) :=
  let es := (List.insertionSort (· ≤ ·) erasures).dedup
  if es.length > self.code_num then
    .error (.TooManyErasures es.length self.code_num)
  else if es.any fun e => e ≥ self.block_num then
    .error (.InvalidArguments ("erasure index out of range: " ++
      String.intercalate ", " (es.map toString)))
  else
    .ok es

/-- `fn make_decode_matrix` (`src/erasure.rs`).  Notes on the translation:
* `block_in_erasure` is a `vec![false; block_num]` whose entries at the
  erasure indices are set; indexing it with an erasure `≥ block_num` would
  panic, but every caller first runs `check_decode_erasure`, which rejects such
  indices; the membership test `erasures.contains` is its value there.
* the final `match` arm `_ => unreachable!()` (an erasure `≥ block_num`) is
  likewise dead on every checked path; it is modelled as the zero row the
  buffer was initialised with. -/
def make_decode_matrix (self : ErasureCode) (erasures : List Nat) :
    Except Error (List Nat) :=
  let k := self.source_num
  let block_in_erasure : Nat → Bool := fun i => erasures.contains i
  let decode_index :=
    ((List.range self.block_num).filter fun i => ¬ block_in_erasure i).take k
  let surviver_row :=
    decode_index.flatMap fun i => (self.encode_matrix.drop (k * i)).take k
  match gf.invert_matrix surviver_row self.k with
  | none => .error (.InternalError "fail to invert matrix")
  | some invert_matrix =>
    let decode_matrix : List Nat :=
      (List.range self.block_num).flatMap fun r =>
        if r < erasures.length then
          let erasure := erasures.getD r 0
          if erasure < k then
            (invert_matrix.drop (k * erasure)).take self.source_num
          else if erasure < self.block_num then
            (List.range k).map fun i =>
              (List.range self.source_num).foldl
                (fun s j => s ^^^ gf.mul (invert_matrix.getD (j * k + i) 0)
                  (self.encode_matrix.getD (k * erasure + j) 0)) 0
          else
            List.replicate k 0
        else
          List.replicate k 0
    .ok decode_matrix

/-- `fn make_decode_table_impl` (`src/erasure.rs`). -/
def make_decode_table_impl (self : ErasureCode) (erasures : List Nat) :
    Except Error DecodeTable :=
  match self.make_decode_matrix erasures with
  | .error e => .error e
  | .ok matrix =>
    let col := self.k
    let row := erasures.length
    match make_table_from_matrix (matrix.take (col * row)) col row with
    | .error e => .error e
    | .ok table => .ok ⟨table⟩

/-- `fn decode_impl` (`src/erasure.rs`): split the chained `data ++ code`
blocks into survivors (`recover_src`, in block order) and erased buffers
(`recover_output`, in block order), run the batch primitive, and write row `r`
of its output into the `r`-th erased block.  `rank i` counts the erased blocks
preceding block `i`, i.e. the position of block `i` among the output
pointers. -/
def decode_impl (self : ErasureCode) (data code : List Block)
    (decode_table : List Nat) (erasures : List Nat) :
    List Block × List Block :=
  let blocks := data ++ code
  let recover_src :=
    (blocks.enum.filter fun p => ¬ erasures.contains p.1).map Prod.snd
  let blk_len := (data.headD []).length
  let recover_output :=
    ec.encode_data blk_len self.k erasures.length decode_table recover_src
  let rank : Nat → Nat := fun i =>
    ((List.range i).filter fun j => erasures.contains j).length
  let upd : Nat → Block → Block := fun i b =>
    if erasures.contains i then recover_output.getD (rank i) [] else b
  (data.mapIdx fun i b => upd i b,
   code.mapIdx fun i b => upd (data.length + i) b)

/-- `fn decode` (`src/erasure.rs`).  The result pairs the returned
`Result<(), Error>` with the final state of the caller's `data` and `code`
buffers (which the Rust function mutates in place only in `decode_impl`). -/
def decode (self : ErasureCode) (data code : List Block)
    (erasures : List Nat) : Except Error Unit × List Block × List Block :=
  match self.check_decode_erasure erasures with
  | .error e => (.error e, data, code)
  | .ok es =>
    match self.check_decode_buffer data code with
    | .error e => (.error e, data, code)
    | .ok _ =>
      match self.make_decode_table_impl es with
      | .error e => (.error e, data, code)
      | .ok decode_gf_table =>
        let dc := self.decode_impl data code decode_gf_table.table es
        (.ok (), dc.1, dc.2)

/-- `fn decode_with_table` (`src/erasure.rs`). -/
def decode_with_table (self : ErasureCode) (data code : List Block)
    (decode_table : DecodeTable) (erasures : List Nat) :
    Except Error Unit × List Block × List Block :=
  match self.check_decode_erasure erasures with
  | .error e => (.error e, data, code)
  | .ok es =>
    match self.check_decode_buffer data code with
    | .error e => (.error e, data, code)
    | .ok _ =>
      let dc := self.decode_impl data code decode_table.table es
      (.ok (), dc.1, dc.2)

/-- `fn make_decode_table` (`src/erasure.rs`). -/
def make_decode_table (self : ErasureCode) (erasures : List Nat) :
    Except Error DecodeTable :=
  match self.check_decode_erasure erasures with
  | .error e => .error e
  | .ok es => self.make_decode_table_impl es

end ErasureCode

/-! ## Basic facts about the engine -/

theorem new_k (k m : Nat) (t : CodeType) : (ErasureCode.new k m t).k = k := by
  cases t <;> rfl

theorem new_m (k m : Nat) (t : CodeType) : (ErasureCode.new k m t).m = m := by
  cases t <;> rfl

theorem source_num_new (k m : Nat) (t : CodeType) :
    (ErasureCode.new k m t).source_num = k := new_k k m t

theorem code_num_new (k m : Nat) (t : CodeType) :
    (ErasureCode.new k m t).code_num = m := new_m k m t

theorem block_num_new (k m : Nat) (t : CodeType) :
    (ErasureCode.new k m t).block_num = k + m := by
  unfold ErasureCode.block_num
  rw [new_k, new_m]

/-! ## Claim C6: `encode` with zero-length blocks -/

/-- Claim C6, counterexample: with k = m = 1, `encode` on one empty data block
and one empty code block returns `Ok` (the code enforces no `L > 0`
precondition), not `InvalidArguments` as claimed. -/
theorem C6_counterexample :
    (ErasureCode.new 1 1 .Cauchy).encode [[]] [[]] = .ok [[]] := by rfl

/-- Claim C6 (amended): for every engine and every well-shaped call with all
blocks of length L = 0, `encode` passes validation and returns `Ok`, writing
nothing (each code block stays empty); the `L > 0` precondition of the spec is
not enforced. -/
theorem C6_encode_zero_length_ok (k m : Nat) (t : CodeType) (data code : List Block)
    (hd : data.length = k) (hc : code.length = m)
    (hdL : ∀ b ∈ data, b.length = 0) (hcL : ∀ b ∈ code, b.length = 0) :
    (ErasureCode.new k m t).encode data code = .ok (List.replicate m []) := by
  have hhead : (data.headD []).length = 0 := by
    cases data with
    | nil => rfl
    | cons b bs => exact hdL b (by simp)
  have hhead2 : (data.head?.getD []).length = 0 := by
    cases data with
    | nil => rfl
    | cons b bs => exact hdL b (by simp)
  have hchk : (ErasureCode.new k m t).check_encode_buffer data code = .ok () := by
    have h1 : ¬ data.length ≠ (ErasureCode.new k m t).source_num := by
      rw [source_num_new]; omega
    have h2 : ¬ code.length ≠ (ErasureCode.new k m t).code_num := by
      rw [code_num_new]; omega
    have h3 : ¬ (data.any fun s => s.length ≠ (data.headD []).length) = true := by
      simp only [List.any_eq_true, not_exists]
      intro b hb
      exact absurd hb.2 (by simp [hdL b hb.1, hhead2])
    have h4 : ¬ (code.any fun s => s.length ≠ (data.headD []).length) = true := by
      simp only [List.any_eq_true, not_exists]
      intro b hb
      exact absurd hb.2 (by simp [hcL b hb.1, hhead2])
    unfold ErasureCode.check_encode_buffer
    rw [if_neg h1, if_neg h2, if_neg h3, if_neg h4]
  have hmap : ∀ q : Nat, ((List.range q).map fun _ => ([] : Block)) = List.replicate q [] := by
    intro q
    induction q with
    | zero => rfl
    | succ a ih =>
      rw [List.range_succ, List.map_append, ih, List.replicate_succ']
      rfl
  have himpl : (ErasureCode.new k m t).encode_impl data = List.replicate m [] := by
    unfold ErasureCode.encode_impl ec.encode_data
    rw [hhead, new_m]
    exact hmap m
  unfold ErasureCode.encode
  rw [hchk]
  exact congrArg Except.ok himpl

/-! ## Claim C10: `encode_to_owned` -/

/-- Claim C10: `encode_to_owned` panics (models as `none`) on an empty data
list, before any validation; on a non-empty list it allocates `m` zero blocks
of the first block's length and delegates to `encode`, whose validation rejects
a wrong block count with `InvalidArguments`. -/
theorem C10_encode_to_owned (k m : Nat) (t : CodeType) (data : List Block) :
    (ErasureCode.new k m t).encode_to_owned [] = none ∧
    (data ≠ [] →
      (ErasureCode.new k m t).encode_to_owned data =
        some ((ErasureCode.new k m t).encode data
          (List.replicate m (List.replicate (data.headD []).length 0)))) ∧
    (data ≠ [] → data.length ≠ k →
      (ErasureCode.new k m t).encode_to_owned data =
        some (.error (.InvalidArguments ("data length " ++ toString data.length ++
          " is not equal to source num " ++ toString k)))) := by
  refine ⟨rfl, ?_, ?_⟩
  · intro hne
    cases data with
    | nil => exact absurd rfl hne
    | cons b bs =>
      unfold ErasureCode.encode_to_owned
      rw [code_num_new k m t]
      rfl
  · intro hne hlen
    cases data with
    | nil => exact absurd rfl hne
    | cons b bs =>
      unfold ErasureCode.encode_to_owned
      show some _ = some _
      congr 1
      unfold ErasureCode.encode ErasureCode.check_encode_buffer
      rw [source_num_new k m t, if_pos hlen, new_k k m t]

/-! ## Claim C3: failing `decode` writes nothing -/

/-- Claim C3: whenever `decode` returns an error (`TooManyErasures`,
`InvalidArguments` or `InternalError`), the caller's data and code buffers are
unchanged: all validation and decode-matrix derivation happen before the first
write. -/
theorem C3_decode_error_no_write (self : ErasureCode) (data code : List Block)
    (erasures : List Nat) (e : Error)
    (h : (self.decode data code erasures).1 = .error e) :
    (self.decode data code erasures).2 = (data, code) := by
  cases hce : self.check_decode_erasure erasures with
  | error e1 => simp only [ErasureCode.decode, hce]
  | ok es =>
    cases hcb : self.check_decode_buffer data code with
    | error e2 => simp only [ErasureCode.decode, hce, hcb]
    | ok u =>
      cases hmt : self.make_decode_table_impl es with
      | error e3 => simp only [ErasureCode.decode, hce, hcb, hmt]
      | ok tbl =>
        simp only [ErasureCode.decode, hce, hcb, hmt] at h
        exact absurd h (by simp)

/-! ## Claim C7: decode-table reuse -/

/-- Claim C7: if `make_decode_table E` succeeds, `decode_with_table` with the
returned table and the same `E` is byte-identical to `decode` with `E` (same
result, same final buffers). -/
theorem C7_table_reuse (self : ErasureCode) (data code : List Block)
    (erasures : List Nat) (tbl : DecodeTable)
    (h : self.make_decode_table erasures = .ok tbl) :
    self.decode_with_table data code tbl erasures = self.decode data code erasures := by
  unfold ErasureCode.make_decode_table at h
  cases hce : self.check_decode_erasure erasures with
  | error e1 =>
    rw [hce] at h
    simp at h
  | ok es =>
    rw [hce] at h
    have h2 : self.make_decode_table_impl es = .ok tbl := h
    cases hcb : self.check_decode_buffer data code with
    | error e2 =>
      simp only [ErasureCode.decode, ErasureCode.decode_with_table, hce, hcb]
    | ok u =>
      simp only [ErasureCode.decode, ErasureCode.decode_with_table, hce, hcb, h2]

/-! ## Claim C4: erasure-list normalization -/

/-- Claim C4: two erasure lists with the same sort+dedup normalization are
indistinguishable to `decode`, `decode_with_table` and `make_decode_table`
(same result or error, identical bytes written); the `TooManyErasures` check
compares the deduplicated count (see also `C5_decode_validation`). -/
theorem C4_normalization (self : ErasureCode) (data code : List Block)
    (tbl : DecodeTable) (e1 e2 : List Nat)
    (h : (List.insertionSort (· ≤ ·) e1).dedup = (List.insertionSort (· ≤ ·) e2).dedup) :
    self.decode data code e1 = self.decode data code e2 ∧
    self.decode_with_table data code tbl e1 = self.decode_with_table data code tbl e2 ∧
    self.make_decode_table e1 = self.make_decode_table e2 := by
  have hchk : self.check_decode_erasure e1 = self.check_decode_erasure e2 := by
    unfold ErasureCode.check_decode_erasure
    rw [h]
  refine ⟨?_, ?_, ?_⟩
  · unfold ErasureCode.decode
    rw [hchk]
  · unfold ErasureCode.decode_with_table
    rw [hchk]
  · unfold ErasureCode.make_decode_table
    rw [hchk]

/-- Witness for C6: the amended theorem applied at k = m = 1 with empty blocks. -/
theorem C6_witness :
    (ErasureCode.new 1 1 .Cauchy).encode [[]] [[]] = .ok (List.replicate 1 []) :=
  C6_encode_zero_length_ok 1 1 .Cauchy [[]] [[]] rfl rfl (by simp) (by simp)

/-- Witness for C10 at a concrete engine: panic on `[]`, delegation on `[[5]]`. -/
theorem C10_witness :
    (ErasureCode.new 2 1 .Cauchy).encode_to_owned [] = none ∧
    (ErasureCode.new 2 1 .Cauchy).encode_to_owned [[5]] =
      some ((ErasureCode.new 2 1 .Cauchy).encode [[5]]
        (List.replicate 1 (List.replicate (([[5]] : List Block).headD []).length 0))) :=
  ⟨(C10_encode_to_owned 2 1 .Cauchy [[5]]).1,
   (C10_encode_to_owned 2 1 .Cauchy [[5]]).2.1 (by simp)⟩

/-- Witness for C3 at a concrete failing decode (too many erasures). -/
theorem C3_witness :
    ((ErasureCode.new 1 1 .Cauchy).decode [[0]] [[0]] [0, 1]).2 = ([[0]], [[0]]) :=
  C3_decode_error_no_write _ _ _ _ (.TooManyErasures 2 1) (by rfl)

/-- Witness for C7 at a concrete engine (k = m = 1, erased parity block). -/
theorem C7_witness :
    (ErasureCode.new 1 1 .Cauchy).decode_with_table [[7]] [[9]] ⟨[1]⟩ [1] =
      (ErasureCode.new 1 1 .Cauchy).decode [[7]] [[9]] [1] :=
  C7_table_reuse _ [[7]] [[9]] [1] ⟨[1]⟩ (by rfl)

/-- Witness for C4: the spec's own example, erasures `[2,5]` versus `[5,2,5]`. -/
theorem C4_witness :
    (ErasureCode.new 4 2 .Cauchy).decode [[0],[1],[2],[3]] [[4],[5]] [2, 5] =
      (ErasureCode.new 4 2 .Cauchy).decode [[0],[1],[2],[3]] [[4],[5]] [5, 2, 5] :=
  (C4_normalization _ [[0],[1],[2],[3]] [[4],[5]] ⟨[]⟩ [2, 5] [5, 2, 5] (by decide)).1

/-! ## Claim C5: decode validation -/

/-- Does a decode result carry an `InvalidArguments` error? -/
def isInvalidArgumentsResult : Except Error Unit → Bool
  | .error (.InvalidArguments _) => true
  | _ => false

/-- Claim C5: `decode` rejects, in order: a normalized (sort+dedup) erasure
count above `m` with `TooManyErasures`; an erasure index `≥ k+m` with
`InvalidArguments`; and block-count or block-length mismatches with
`InvalidArguments`. -/
theorem C5_decode_validation (self : ErasureCode) (data code : List Block)
    (erasures : List Nat) :
    ((List.insertionSort (· ≤ ·) erasures).dedup.length > self.code_num →
      (self.decode data code erasures).1 =
        .error (.TooManyErasures (List.insertionSort (· ≤ ·) erasures).dedup.length
          self.code_num)) ∧
    ((List.insertionSort (· ≤ ·) erasures).dedup.length ≤ self.code_num →
      (∃ e ∈ (List.insertionSort (· ≤ ·) erasures).dedup, self.block_num ≤ e) →
      isInvalidArgumentsResult (self.decode data code erasures).1 = true) ∧
    ((List.insertionSort (· ≤ ·) erasures).dedup.length ≤ self.code_num →
      (∀ e ∈ (List.insertionSort (· ≤ ·) erasures).dedup, e < self.block_num) →
      (data.length ≠ self.source_num ∨ code.length ≠ self.code_num ∨
        ∃ b ∈ data ++ code, b.length ≠ (data.headD []).length) →
      isInvalidArgumentsResult (self.decode data code erasures).1 = true) := by
  refine ⟨?_, ?_, ?_⟩
  · intro h
    have hce : self.check_decode_erasure erasures =
        .error (.TooManyErasures (List.insertionSort (· ≤ ·) erasures).dedup.length
          self.code_num) := by
      simp only [ErasureCode.check_decode_erasure]
      rw [if_pos h]
    simp only [ErasureCode.decode, hce]
  · intro hlen hex
    have hany : ((List.insertionSort (· ≤ ·) erasures).dedup.any
        fun e => e ≥ self.block_num) = true := by
      rw [List.any_eq_true]
      obtain ⟨e, he, hge⟩ := hex
      exact ⟨e, he, by simpa using hge⟩
    have hce : self.check_decode_erasure erasures =
        .error (.InvalidArguments ("erasure index out of range: " ++
          String.intercalate ", "
            ((List.insertionSort (· ≤ ·) erasures).dedup.map toString))) := by
      simp only [ErasureCode.check_decode_erasure]
      rw [if_neg (by omega), if_pos hany]
    simp only [ErasureCode.decode, hce]
    rfl
  · intro hlen hall hbuf
    have hnotany : ¬ ((List.insertionSort (· ≤ ·) erasures).dedup.any
        fun e => e ≥ self.block_num) = true := by
      rw [List.any_eq_true]
      rintro ⟨e, he, hge⟩
      exact absurd (hall e he) (by simpa using hge)
    have hce : self.check_decode_erasure erasures =
        .ok (List.insertionSort (· ≤ ·) erasures).dedup := by
      simp only [ErasureCode.check_decode_erasure]
      rw [if_neg (by omega), if_neg hnotany]
    have hcb : isInvalidArgumentsResult (self.check_decode_buffer data code) = true := by
      simp only [ErasureCode.check_decode_buffer]
      by_cases h1 : data.length ≠ self.k
      · rw [if_pos h1]; rfl
      rw [if_neg h1]
      by_cases h2 : code.length ≠ self.m
      · rw [if_pos h2]; rfl
      rw [if_neg h2]
      have hb : ∃ b ∈ data ++ code, b.length ≠ (data.headD []).length := by
        rcases hbuf with h | h | h
        · exact absurd h (by simpa [ErasureCode.source_num] using h1)
        · exact absurd h (by simpa [ErasureCode.code_num] using h2)
        · exact h
      obtain ⟨b, hbmem, hbne⟩ := hb
      rcases List.mem_append.mp hbmem with hd | hc
      · rw [if_pos (by rw [List.any_eq_true]; exact ⟨b, hd, by simpa using hbne⟩)]
        rfl
      · by_cases h3 : (data.any fun s => s.length ≠ (data.headD []).length) = true
        · rw [if_pos h3]; rfl
        · rw [if_neg h3,
            if_pos (by rw [List.any_eq_true]; exact ⟨b, hc, by simpa using hbne⟩)]
          rfl
    cases hcb2 : self.check_decode_buffer data code with
    | ok u =>
      rw [hcb2] at hcb
      simp [isInvalidArgumentsResult] at hcb
    | error err =>
      rw [hcb2] at hcb
      simp only [ErasureCode.decode, hce, hcb2]
      exact hcb

/-- Witness for C5: the three rejection branches at concrete inputs. -/
theorem C5_witness :
    ((ErasureCode.new 1 1 .Cauchy).decode [[0]] [[0]] [0, 1]).1 =
      .error (.TooManyErasures 2 1) ∧
    isInvalidArgumentsResult ((ErasureCode.new 1 1 .Cauchy).decode [[0]] [[0]] [5]).1 = true ∧
    isInvalidArgumentsResult
      ((ErasureCode.new 1 1 .Cauchy).decode [[0], [1]] [[0]] [0]).1 = true := by
  refine ⟨?_, ?_, ?_⟩
  · exact (C5_decode_validation (ErasureCode.new 1 1 .Cauchy) [[0]] [[0]] [0, 1]).1
      (by decide)
  · exact (C5_decode_validation (ErasureCode.new 1 1 .Cauchy) [[0]] [[0]] [5]).2.1
      (by decide) ⟨5, by decide, by decide⟩
  · exact (C5_decode_validation (ErasureCode.new 1 1 .Cauchy) [[0], [1]] [[0]] [0]).2.2
      (by decide) (by decide) (Or.inl (by decide))

/-! ## XOR-fold helpers -/

theorem foldl_xor_init {α : Type} (l : List α) (f : α → Nat) (a : Nat) :
    l.foldl (fun acc x => acc ^^^ f x) a = a ^^^ l.foldl (fun acc x => acc ^^^ f x) 0 := by
  induction l generalizing a with
  | nil => simp
  | cons x xs ih =>
    rw [List.foldl_cons, List.foldl_cons, ih, ih (0 ^^^ f x)]
    rw [Nat.zero_xor, Nat.xor_assoc]

theorem foldl_xor_congr {α : Type} {l : List α} {f g : α → Nat}
    (h : ∀ x ∈ l, f x = g x) :
    l.foldl (fun acc x => acc ^^^ f x) 0 = l.foldl (fun acc x => acc ^^^ g x) 0 := by
  induction l with
  | nil => rfl
  | cons x xs ih =>
    rw [List.foldl_cons, List.foldl_cons, foldl_xor_init, foldl_xor_init xs g,
      h x (by simp), ih fun y hy => h y (by simp [hy])]

theorem foldl_xor_split {α : Type} (l : List α) (f g : α → Nat) :
    l.foldl (fun acc x => acc ^^^ (f x ^^^ g x)) 0 =
      l.foldl (fun acc x => acc ^^^ f x) 0 ^^^ l.foldl (fun acc x => acc ^^^ g x) 0 := by
  induction l with
  | nil => simp
  | cons x xs ih =>
    rw [List.foldl_cons, List.foldl_cons, List.foldl_cons,
      foldl_xor_init, foldl_xor_init xs f, foldl_xor_init xs g, ih]
    simp only [Nat.zero_xor]
    rw [Nat.xor_assoc, Nat.xor_assoc]
    congr 1
    rw [← Nat.xor_assoc, Nat.xor_comm (g x), Nat.xor_assoc]

theorem foldl_xor_single {k i : Nat} (hi : i < k) (X : Nat) :
    (List.range k).foldl (fun acc j => acc ^^^ (if j = i then X else 0)) 0 = X := by
  induction k with
  | zero => omega
  | succ q ih =>
    rw [List.range_succ, List.foldl_append, foldl_xor_init [q]]
    rcases Nat.lt_or_ge i q with hq | hq
    · rw [ih hq]
      simp only [List.foldl_cons, List.foldl_nil, Nat.zero_xor]
      rw [if_neg (by omega)]
      simp
    · have hiq : i = q := by omega
      subst hiq
      have hz : (List.range i).foldl (fun acc j => acc ^^^ (if j = i then X else 0)) 0 = 0 := by
        rw [foldl_xor_congr (g := fun _ => 0) fun x hx => by
          rw [if_neg (by simp at hx; omega)]]
        induction (List.range i) with
        | nil => rfl
        | cons y ys ihy => rw [List.foldl_cons, Nat.xor_zero]; exact ihy
      rw [hz]
      simp

/-! ## Byte-bound helpers -/

theorem getD_lt_of_forall {l : List Nat} (h : ∀ x ∈ l, x < 256) (i : Nat) :
    l.getD i 0 < 256 := by
  rcases Nat.lt_or_ge i l.length with hi | hi
  · rw [List.getD_eq_getElem l 0 hi]
    exact h _ (List.getElem_mem hi)
  · rw [List.getD_eq_default l 0 hi]
    norm_num

theorem block_byte_lt {blocks : List Block}
    (h : ∀ b ∈ blocks, ∀ x ∈ b, x < 256) (j p : Nat) :
    (blocks.getD j []).getD p 0 < 256 := by
  rcases Nat.lt_or_ge j blocks.length with hj | hj
  · refine getD_lt_of_forall ?_ p
    rw [List.getD_eq_getElem blocks [] hj]
    exact h _ (List.getElem_mem hj)
  · rw [List.getD_eq_default blocks [] hj]
    simp

theorem gf_pow_lt (a e : Nat) : gf.pow a e < 256 := by
  cases e with
  | zero => norm_num [gf.pow]
  | succ q => exact gf_mul_lt _ _

theorem rsMatrixEntry_lt (k i j : Nat) : rsMatrixEntry k i j < 256 := by
  unfold rsMatrixEntry
  split
  · split <;> norm_num
  · exact gf_pow_lt _ _

theorem cauchyMatrixEntry_lt (k i j : Nat) : cauchyMatrixEntry k i j < 256 := by
  unfold cauchyMatrixEntry
  split
  · split <;> norm_num
  · exact gf_inv_lt _

theorem encode_matrix_mem_lt (k m : Nat) (t : CodeType) :
    ∀ x ∈ (ErasureCode.new k m t).encode_matrix, x < 256 := by
  intro x hx
  cases t <;>
  · simp only [ErasureCode.new, gf.gen_rs_matrix, gf.gen_cauchy1_matrix] at hx
    rw [List.mem_flatMap] at hx
    obtain ⟨i, _, hx⟩ := hx
    rw [List.mem_map] at hx
    obtain ⟨j, _, rfl⟩ := hx
    first
      | exact rsMatrixEntry_lt _ _ _
      | exact cauchyMatrixEntry_lt _ _ _

theorem encode_gf_table_entry_lt (k m : Nat) (t : CodeType) (idx : Nat) :
    (ErasureCode.new k m t).encode_gf_table.getD idx 0 < 256 := by
  refine getD_lt_of_forall ?_ idx
  intro x hx
  refine encode_matrix_mem_lt k m t x ?_
  have hsub : (ErasureCode.new k m t).encode_gf_table ⊆
      (ErasureCode.new k m t).encode_matrix := by
    show ((ErasureCode.new k m t).encode_matrix.drop (k * k)) ⊆ _
    exact List.drop_subset _ _
  exact hsub hx

/-! ## Check inversion helpers -/

theorem check_encode_buffer_ok {self : ErasureCode} {data code : List Block}
    (h : self.check_encode_buffer data code = .ok ()) :
    data.length = self.source_num ∧ code.length = self.code_num ∧
    (∀ b ∈ data, b.length = (data.headD []).length) ∧
    (∀ b ∈ code, b.length = (data.headD []).length) := by
  simp only [ErasureCode.check_encode_buffer] at h
  by_cases h1 : data.length ≠ self.source_num
  · rw [if_pos h1] at h; exact absurd h (by simp)
  rw [if_neg h1] at h
  by_cases h2 : code.length ≠ self.code_num
  · rw [if_pos h2] at h; exact absurd h (by simp)
  rw [if_neg h2] at h
  by_cases h3 : (data.any fun s => s.length ≠ (data.headD []).length) = true
  · rw [if_pos h3] at h; exact absurd h (by simp)
  rw [if_neg h3] at h
  by_cases h4 : (code.any fun s => s.length ≠ (data.headD []).length) = true
  · rw [if_pos h4] at h; exact absurd h (by simp)
  refine ⟨by omega, by omega, ?_, ?_⟩
  · intro b hb
    by_contra hne
    exact h3 (List.any_eq_true.mpr ⟨b, hb, by simpa using hne⟩)
  · intro b hb
    by_contra hne
    exact h4 (List.any_eq_true.mpr ⟨b, hb, by simpa using hne⟩)

theorem check_encode_buffer_ok_of {self : ErasureCode} {data code : List Block}
    (h1 : data.length = self.source_num) (h2 : code.length = self.code_num)
    (h3 : ∀ b ∈ data, b.length = (data.headD []).length)
    (h4 : ∀ b ∈ code, b.length = (data.headD []).length) :
    self.check_encode_buffer data code = .ok () := by
  have c3 : ¬ (data.any fun s => s.length ≠ (data.headD []).length) = true := by
    simp only [List.any_eq_true, not_exists]
    intro b hcon
    exact absurd hcon.2 (by simp [h3 b hcon.1])
  have c4 : ¬ (code.any fun s => s.length ≠ (data.headD []).length) = true := by
    simp only [List.any_eq_true, not_exists]
    intro b hcon
    exact absurd hcon.2 (by simp [h4 b hcon.1])
  simp only [ErasureCode.check_encode_buffer]
  rw [if_neg (by omega), if_neg (by omega), if_neg c3, if_neg c4]

theorem check_update_ok_of {self : ErasureCode} {index : Nat} {delta : Block}
    {code : List Block}
    (h1 : index < self.source_num) (h2 : code.length = self.code_num)
    (h3 : ∀ b ∈ code, b.length = delta.length) :
    self.check_update index delta code = .ok () := by
  have c3 : ¬ (code.any fun s => s.length ≠ delta.length) = true := by
    simp only [List.any_eq_true, not_exists]
    intro b hcon
    exact absurd hcon.2 (by simp [h3 b hcon.1])
  simp only [ErasureCode.check_update]
  rw [if_neg (by omega), if_neg (by omega), if_neg c3]

/-! ## `getD` conveniences -/

theorem headD_eq_getD {α : Type} (l : List α) (d : α) : l.headD d = l.getD 0 d := by
  cases l <;> rfl

theorem getD_map_range {α : Type} (f : Nat → α) {q r : Nat} (hr : r < q) (d : α) :
    ((List.range q).map f).getD r d = f r := by
  rw [List.getD_eq_getElem _ _ (by simpa using hr), List.getElem_map, List.getElem_range]

theorem getD_mapIdx {α : Type} (l : List α) (f : Nat → α → α) {j : Nat} (d : α)
    (hj : j < l.length) :
    (l.mapIdx f).getD j d = f j (l.getD j d) := by
  rw [List.getD_eq_getElem _ _ (by simpa using hj), List.getElem_mapIdx,
    List.getD_eq_getElem _ _ hj]

theorem getD_zipWith_xor {b c : List Nat} {p : Nat} (hb : p < b.length)
    (hc : p < c.length) :
    (b.zipWith (· ^^^ ·) c).getD p 0 = b.getD p 0 ^^^ c.getD p 0 := by
  rw [List.getD_eq_getElem _ _ (by rw [List.length_zipWith]; omega), List.getElem_zipWith,
    List.getD_eq_getElem _ _ hb, List.getD_eq_getElem _ _ hc]

/-! ## Claim C8: incremental update equivalence -/

/-- Claim C8: for a parity state produced by `encode`, `update i delta parity`
yields exactly the parity of re-encoding from scratch the data whose block `i`
has been XORed with `delta`. -/
theorem C8_update_equivalence (k m L : Nat) (t : CodeType)
    (data code0 parity : List Block) (i : Nat) (delta : Block)
    (hk : 0 < k) (hi : i < k)
    (hdlen : data.length = k) (hdL : ∀ b ∈ data, b.length = L)
    (hdb : ∀ b ∈ data, ∀ x ∈ b, x < 256)
    (hdelta : delta.length = L) (hdeltab : ∀ x ∈ delta, x < 256)
    (henc : (ErasureCode.new k m t).encode data code0 = .ok parity) :
    (ErasureCode.new k m t).update i delta parity =
      (ErasureCode.new k m t).encode
        (data.mapIdx fun j b => if j = i then b.zipWith (· ^^^ ·) delta else b) code0 := by
  set self := ErasureCode.new k m t with hself
  set data' := data.mapIdx fun j b => if j = i then b.zipWith (· ^^^ ·) delta else b
    with hdata'
  have hsk : self.source_num = k := source_num_new k m t
  have hcm : self.code_num = m := code_num_new k m t
  have hdpos : 0 < data.length := by omega
  have hhead : (data.headD []).length = L := by
    rw [headD_eq_getD, List.getD_eq_getElem _ _ hdpos]
    exact hdL _ (List.getElem_mem hdpos)
  -- invert the encode hypothesis
  cases hchk : self.check_encode_buffer data code0 with
  | error e0 =>
    rw [ErasureCode.encode, hchk] at henc
    exact absurd henc (by simp)
  | ok u0 =>
    cases u0
    obtain ⟨hd0, hc0, hd0L, hc0L⟩ := check_encode_buffer_ok hchk
    rw [ErasureCode.encode, hchk] at henc
    have hpar : parity = self.encode_impl data := by
      simpa using henc.symm
    -- lengths of the mutated data
    have hd'len : data'.length = k := by
      rw [hdata', List.length_mapIdx, hdlen]
    have hd'L : ∀ j, j < k → (data'.getD j []).length = L := by
      intro j hj
      rw [hdata', getD_mapIdx _ _ _ (by omega)]
      split
      · rw [List.length_zipWith, List.getD_eq_getElem _ _ (by omega), hdelta,
          hdL _ (List.getElem_mem (by omega))]
        simp
      · rw [List.getD_eq_getElem _ _ (by omega)]
        exact hdL _ (List.getElem_mem (by omega))
    have hd'head : (data'.headD []).length = L := by
      rw [headD_eq_getD]
      exact hd'L 0 hk
    have hd'mem : ∀ b ∈ data', b.length = (data'.headD []).length := by
      intro b hb
      rw [hd'head]
      obtain ⟨j, hj, rfl⟩ := List.mem_iff_getElem.mp hb
      rw [← List.getD_eq_getElem _ [] hj]
      exact hd'L j (by omega)
    -- parity block shapes
    have hparlen : parity.length = m := by
      rw [hpar]
      show (ec.encode_data _ _ _ _ _).length = m
      rw [ec.encode_data, List.length_map, List.length_range, new_m]
    have hparblock : ∀ r, r < m → parity.getD r [] =
        (List.range L).map fun p =>
          (List.range self.k).foldl
            (fun acc j => acc ^^^ gf.mul (self.encode_gf_table.getD (r * self.k + j) 0)
              ((data.getD j []).getD p 0)) 0 := by
      intro r hr
      rw [hpar]
      show (ec.encode_data (data.headD []).length self.k self.m _ _).getD r [] = _
      rw [ec.encode_data, hhead, getD_map_range _ (by rw [new_m]; omega)]
    -- the update call succeeds
    have hupdchk : self.check_update i delta parity = .ok () := by
      refine check_update_ok_of (by omega) (by omega) ?_
      intro b hb
      obtain ⟨r, hr, rfl⟩ := List.mem_iff_getElem.mp hb
      rw [← List.getD_eq_getElem _ [] hr, hparblock r (by omega), hdelta,
        List.length_map, List.length_range]
    -- the re-encode call succeeds
    have hencchk : self.check_encode_buffer data' code0 = .ok () := by
      refine check_encode_buffer_ok_of (by omega) hc0 hd'mem ?_
      intro b hb
      rw [hd'head, ← hhead]
      exact hc0L b hb
    rw [ErasureCode.update, hupdchk, ErasureCode.encode, hencchk]
    show Except.ok _ = Except.ok _
    congr 1
    -- both sides are m × L byte grids; compare entrywise
    rw [ErasureCode.encode_impl, ec.encode_data_update, ec.encode_data, hd'head, hdelta]
    refine List.map_congr_left fun r hr => ?_
    rw [List.mem_range] at hr
    have hrm : r < m := by rwa [new_m] at hr
    refine List.map_congr_left fun p hp => ?_
    rw [List.mem_range] at hp
    -- left entry: parity[r][p] ^^^ T_i·δ_p
    rw [hparblock r hrm, getD_map_range _ hp]
    -- right entry: fold over the mutated data
    have hterm : ∀ j ∈ List.range self.k,
        gf.mul (self.encode_gf_table.getD (r * self.k + j) 0) ((data'.getD j []).getD p 0) =
          gf.mul (self.encode_gf_table.getD (r * self.k + j) 0) ((data.getD j []).getD p 0) ^^^
          (if j = i then
            gf.mul (self.encode_gf_table.getD (r * self.k + i) 0) (delta.getD p 0)
          else 0) := by
      intro j hj
      rw [List.mem_range] at hj
      have hjk : j < k := by rwa [new_k] at hj
      rw [hdata', getD_mapIdx _ _ _ (by omega)]
      by_cases hji : j = i
      · subst hji
        rw [if_pos rfl, if_pos rfl,
          getD_zipWith_xor (by rw [List.getD_eq_getElem _ _ (by omega)]
                               rw [hdL _ (List.getElem_mem (by omega))]; omega)
            (by omega)]
        exact gf_mul_xor (encode_gf_table_entry_lt k m t _)
          (block_byte_lt hdb j p) (getD_lt_of_forall hdeltab p)
      · rw [if_neg hji, if_neg hji, Nat.xor_zero]
    rw [foldl_xor_congr hterm, foldl_xor_split]
    have hsingle : (List.range self.k).foldl
        (fun acc j => acc ^^^ (if j = i then
          gf.mul (self.encode_gf_table.getD (r * self.k + i) 0) (delta.getD p 0)
        else 0)) 0 =
        gf.mul (self.encode_gf_table.getD (r * self.k + i) 0) (delta.getD p 0) := by
      refine foldl_xor_single ?_ _
      rw [new_k]
      omega
    rw [hsingle]

/-- Witness for C8 at a concrete engine (k = 2, m = 1, L = 1). -/
theorem C8_witness :
    (ErasureCode.new 2 1 .Cauchy).update 0 [7] [[123]] =
      (ErasureCode.new 2 1 .Cauchy).encode
        (([[1], [2]] : List Block).mapIdx fun j b =>
          if j = 0 then b.zipWith (· ^^^ ·) [7] else b) [[0]] :=
  C8_update_equivalence 2 1 1 .Cauchy [[1], [2]] [[0]] [[123]] 0 [7]
    (by norm_num) (by norm_num) (by simp) (by simp) (by simp)
    (by simp) (by simp) (by rfl)

/-! ## Claim C2: decode-matrix derivation follows the spec's algorithm

The following `spec…` definitions are written from the spec's words (§4.4,
steps 1-5), to be compared against the code's `make_decode_matrix`. -/

/-- Spec §4.4 step 1: "the first k indices in 0..n not in E, ascending". -/
def specSurvivorSelection (n k : Nat) (E : List Nat) : List Nat :=
  ((List.range n).filter fun i => i ∉ E).take k

/-- Spec §4.4 step 2: the k×k matrix formed by the encoding-matrix rows at the
survivor indices (row-major bytes). -/
def specSurvivorMatrix (self : ErasureCode) (E : List Nat) : List Nat :=
  (specSurvivorSelection self.block_num self.source_num E).flatMap fun i =>
    (List.range self.source_num).map fun j =>
      self.encode_matrix.getD (self.source_num * i + j) 0

/-- Spec §4.4 step 4: the decode-matrix row for erasure `e`: row `e` of the
inverse when `e < k`; otherwise `row[i] = XOR over j of
mul(InverseMatrix[j][i], EncodingMatrix[e][j])`. -/
def specDecodeRow (self : ErasureCode) (inv : List Nat) (e : Nat) : List Nat :=
  if e < self.source_num then
    (List.range self.source_num).map fun i => inv.getD (self.source_num * e + i) 0
  else
    (List.range self.source_num).map fun i =>
      (List.range self.source_num).foldl
        (fun s j => s ^^^ gf.mul (inv.getD (j * self.source_num + i) 0)
          (self.encode_matrix.getD (self.source_num * e + j) 0)) 0

/-- Spec §4.4 steps 1-5 composed: select survivors, invert their matrix, and
produce one length-k row per erasure, in E's order. -/
def specDecodeMatrix (self : ErasureCode) (E : List Nat) : Option (List (List Nat)) :=
  match gf.invert_matrix (specSurvivorMatrix self E) self.source_num with
  | none => none
  | some inv => some (E.map (specDecodeRow self inv))

theorem flatMap_congr_left {α β : Type} {l : List α} {f g : α → List β}
    (h : ∀ a ∈ l, f a = g a) : l.flatMap f = l.flatMap g := by
  induction l with
  | nil => rfl
  | cons x xs ih =>
    rw [List.flatMap_cons, List.flatMap_cons, h x (by simp),
      ih fun a ha => h a (by simp [ha])]

theorem drop_take_eq_map_getD (l : List Nat) (a c : Nat) (h : a + c ≤ l.length) :
    (l.drop a).take c = (List.range c).map fun j => l.getD (a + j) 0 := by
  refine List.ext_getElem ?_ ?_
  · simp only [List.length_take, List.length_drop, List.length_map, List.length_range]
    omega
  · intro n h1 h2
    have hn : n < c := by simpa using h2
    rw [List.getElem_take, List.getElem_drop, List.getElem_map, List.getElem_range,
      List.getD_eq_getElem _ _ (by omega)]

theorem flatMap_chunk {α : Type} (l : List α) (f : α → List Nat) (c : Nat)
    (hf : ∀ a ∈ l, (f a).length = c) (r : Nat) (hr : r < l.length) :
    ((l.flatMap f).drop (c * r)).take c = f (l.get ⟨r, hr⟩) := by
  induction l generalizing r with
  | nil => simp at hr
  | cons x xs ih =>
    rw [List.flatMap_cons]
    cases r with
    | zero =>
      rw [Nat.mul_zero, List.drop_zero, List.take_append_eq_append_take,
        List.take_of_length_le (le_of_eq (hf x (by simp))), hf x (by simp)]
      simp
    | succ q =>
      have hx : (f x).length = c := hf x (by simp)
      have harith : c * (q + 1) = (f x).length + c * q := by rw [hx]; ring
      rw [harith, ← List.drop_drop, List.drop_left,
        ih (fun a ha => hf a (by simp [ha])) q (by simpa using Nat.lt_of_succ_lt_succ (by simpa using hr)),
        List.get_cons_succ]

theorem encode_matrix_length (k m : Nat) (t : CodeType) :
    (ErasureCode.new k m t).encode_matrix.length = (k + m) * k := by
  have h : ∀ g : Nat → Nat → Nat,
      ((List.range (k + m)).flatMap fun i => (List.range k).map fun j => g i j).length =
        (k + m) * k := by
    intro g
    rw [flatMap_length_const _ _ k fun a _ => by rw [List.length_map, List.length_range],
      List.length_range]
  cases t
  · exact h fun i j => rsMatrixEntry k i j
  · exact h fun i j => cauchyMatrixEntry k i j

theorem source_num_def (self : ErasureCode) : self.source_num = self.k := rfl

theorem code_num_def (self : ErasureCode) : self.code_num = self.m := rfl

theorem block_num_def (self : ErasureCode) : self.block_num = self.k + self.m := rfl

/-- The survivor matrix as `make_decode_matrix` builds it (named alias of the
code's `decode_index`/`surviver_row` computation; `make_decode_matrix_eq` below
proves, definitionally, that `make_decode_matrix` is exactly this pipeline). -/
def survCode (self : ErasureCode) (E : List Nat) : List Nat :=
  (((List.range self.block_num).filter fun i => ¬ (E.contains i)).take self.source_num).flatMap
    fun i => (self.encode_matrix.drop (self.source_num * i)).take self.source_num

/-- One decode-matrix row as `make_decode_matrix` builds it. -/
def dmatRow (self : ErasureCode) (invm : List Nat) (e : Nat) : List Nat :=
  if e < self.source_num then
    (invm.drop (self.source_num * e)).take self.source_num
  else if e < self.block_num then
    (List.range self.source_num).map fun i =>
      (List.range self.source_num).foldl
        (fun s j => s ^^^ gf.mul (invm.getD (j * self.source_num + i) 0)
          (self.encode_matrix.getD (self.source_num * e + j) 0)) 0
  else List.replicate self.source_num 0

/-- The flat decode matrix as `make_decode_matrix` builds it. -/
def dmat (self : ErasureCode) (E : List Nat) (invm : List Nat) : List Nat :=
  (List.range self.block_num).flatMap fun r =>
    if r < E.length then dmatRow self invm (E.getD r 0)
    else List.replicate self.source_num 0

theorem make_decode_matrix_eq (self : ErasureCode) (E : List Nat) :
    self.make_decode_matrix E =
      match gf.invert_matrix (survCode self E) self.k with
      | none => .error (.InternalError "fail to invert matrix")
      | some invm => .ok (dmat self E invm) := rfl

theorem flatOfMat_length {rows cols : Nat} (M : Matrix (Fin rows) (Fin cols) GF) :
    (flatOfMat M).length = rows * cols := by
  unfold flatOfMat
  rw [flatMap_length_const _ _ cols fun a _ => by rw [List.length_map, List.length_finRange],
    List.length_finRange]

theorem invert_matrix_some_length {input out : List Nat} {n : Nat}
    (h : gf.invert_matrix input n = some out) : out.length = n * n := by
  unfold gf.invert_matrix at h
  split at h
  · exact absurd h (by simp)
  · have h2 := Option.some_injective _ h
    rw [← h2, flatOfMat_length]

theorem dmatRow_length (self : ErasureCode) (invm : List Nat) (e : Nat)
    (hinv : invm.length = self.k * self.k) :
    (dmatRow self invm e).length = self.source_num := by
  unfold dmatRow
  split
  · rename_i he
    rw [List.length_take, List.length_drop, hinv, source_num_def]
    have h1 : self.k * e + self.k ≤ self.k * self.k := by
      have h2 : self.k * (e + 1) ≤ self.k * self.k :=
        Nat.mul_le_mul_left _ (by rw [source_num_def] at he; omega)
      calc self.k * e + self.k = self.k * (e + 1) := by ring
        _ ≤ self.k * self.k := h2
    rw [source_num_def] at *
    omega
  · split
    · rw [List.length_map, List.length_range]
    · rw [List.length_replicate]

/-- Claim C2: for every normalized erasure set (sorted, unique, size ≤ m, all
indices < k+m) on which `make_decode_matrix` succeeds, the derivation follows
the spec's algorithm (§4.4): survivors are the first k indices not in E in
ascending order; the k×k matrix of encoding-matrix rows at those indices is
inverted; and each produced row is the inverse's row `e` for a source erasure,
or the recombination `row[i] = XOR_j mul(Inverse[j][i], Encoding[e][j])` for a
parity erasure, in E's order. -/
theorem C2_decode_matrix_follows_spec (k m : Nat) (t : CodeType) (E : List Nat)
    (D : List Nat) (_hsort : E.Sorted (· ≤ ·)) (_hnd : E.Nodup)
    (hlen : E.length ≤ m) (hmem : ∀ e ∈ E, e < k + m)
    (hD : (ErasureCode.new k m t).make_decode_matrix E = .ok D) :
    specDecodeMatrix (ErasureCode.new k m t) E =
      some ((List.range E.length).map fun r => (D.drop (k * r)).take k) := by
  set self := ErasureCode.new k m t with hself
  have hk_eq : self.k = k := new_k k m t
  have hm_eq : self.m = m := new_m k m t
  have hmatlen : self.encode_matrix.length = (k + m) * k := encode_matrix_length k m t
  -- step 1-2: the spec's survivor matrix is the code's survivor matrix
  have hsel : specSurvivorSelection self.block_num self.source_num E =
      ((List.range self.block_num).filter fun i => ¬ (E.contains i)).take self.source_num := by
    unfold specSurvivorSelection
    congr 1
    refine List.filter_congr fun x _ => ?_
    by_cases hx : x ∈ E
    · simp [hx, List.elem_iff]
    · simp [hx, List.elem_iff]
  have hsurv : specSurvivorMatrix self E = survCode self E := by
    unfold specSurvivorMatrix survCode
    rw [hsel]
    refine flatMap_congr_left fun i hi => ?_
    refine (drop_take_eq_map_getD _ _ _ ?_).symm
    have hiN : i < self.block_num :=
      List.mem_range.mp (List.mem_of_mem_filter (List.take_subset _ _ hi))
    rw [block_num_def, hk_eq, hm_eq] at hiN
    rw [hmatlen, source_num_def, hk_eq]
    calc k * i + k = k * (i + 1) := by ring
      _ ≤ k * (k + m) := Nat.mul_le_mul_left _ (by omega)
      _ = (k + m) * k := Nat.mul_comm _ _
  -- step 3: both run the same inversion
  rw [make_decode_matrix_eq] at hD
  unfold specDecodeMatrix
  rw [hsurv, source_num_def]
  cases hinv : gf.invert_matrix (survCode self E) self.k with
  | none => rw [hinv] at hD; exact absurd hD (by simp)
  | some invm =>
    rw [hinv] at hD
    have hDval : dmat self E invm = D := by simpa using hD
    have hinvlen : invm.length = self.k * self.k := invert_matrix_some_length hinv
    -- step 4-5: the rows agree, in E's order
    show some _ = some _
    congr 1
    refine List.ext_getElem (by simp) fun r h1 h2 => ?_
    have hr : r < E.length := by simpa using h1
    rw [List.getElem_map, List.getElem_map, List.getElem_range,
      ← List.getD_eq_getElem E 0 hr]
    -- the code's r-th row chunk
    have hks : self.source_num = k := by rw [source_num_def, hk_eq]
    have hchunk : (D.drop (k * r)).take k = dmatRow self invm (E.getD r 0) := by
      have hrn : r < (List.range self.block_num).length := by
        rw [List.length_range, block_num_def, hk_eq, hm_eq]
        omega
      have hthis := flatMap_chunk (List.range self.block_num)
        (fun r => if r < E.length then dmatRow self invm (E.getD r 0)
          else List.replicate self.source_num 0) self.source_num
        (fun a _ => by
          dsimp only
          split
          · exact dmatRow_length self invm _ hinvlen
          · rw [List.length_replicate]) r hrn
      rw [List.get_eq_getElem, List.getElem_range, if_pos hr] at hthis
      rw [← hDval, ← hks]
      exact hthis
    rw [hchunk]
    -- the spec row equals the code row
    have he_mem : E.getD r 0 ∈ E := by
      rw [List.getD_eq_getElem _ _ hr]
      exact List.getElem_mem hr
    have he_lt : E.getD r 0 < k + m := hmem _ he_mem
    unfold specDecodeRow dmatRow
    by_cases hek : E.getD r 0 < self.source_num
    · rw [if_pos hek, if_pos hek]
      refine (drop_take_eq_map_getD _ _ _ ?_).symm
      rw [hinvlen, source_num_def, hk_eq]
      rw [source_num_def, hk_eq] at hek
      calc k * (E.getD r 0) + k = k * (E.getD r 0 + 1) := by ring
        _ ≤ k * k := Nat.mul_le_mul_left _ (by omega)
    · rw [if_neg hek, if_neg hek,
        if_pos (by rw [block_num_def, hk_eq, hm_eq]; omega)]

/-- Witness for C2: the repository test's own scenario (Cauchy, k=4, m=2,
erasures [3,4]) with its pinned decode matrix. -/
theorem C2_witness :
    specDecodeMatrix (ErasureCode.new 4 2 .Cauchy) [3, 4] =
      some ((List.range ([3, 4] : List Nat).length).map fun r =>
        (([245, 143, 187, 6, 96, 64, 254, 187, 0, 0, 0, 0, 0, 0, 0, 0,
           0, 0, 0, 0, 0, 0, 0, 0] : List Nat).drop (4 * r)).take 4) :=
  C2_decode_matrix_follows_spec 4 2 .Cauchy [3, 4] _ (by decide) (by decide)
    (by decide) (by decide) (by rfl)

/-! ## Claim C1 infrastructure: GF reading of the byte computations -/

theorem getD_drop (l : List Nat) (a j d : Nat) : (l.drop a).getD j d = l.getD (a + j) d := by
  rw [List.getD_eq_getElem?_getD, List.getD_eq_getElem?_getD, List.getElem?_drop]

theorem getD_take {l : List Nat} {q j : Nat} (hj : j < q) (d : Nat) :
    (l.take q).getD j d = l.getD j d := by
  rw [List.getD_eq_getElem?_getD, List.getD_eq_getElem?_getD, List.getElem?_take,
    if_pos hj]

theorem toGF_xor (a b : Nat) : toGF (a ^^^ b) = toGF a + toGF b :=
  GF.val_injective (mod_256_xor a b)

theorem toGF_mul (a b : Nat) : toGF (gf.mul a b) = toGF a * toGF b := by
  refine GF.val_injective ?_
  show gf.mul a b % 256 = gf.mul (a % 256) (b % 256)
  rw [Nat.mod_eq_of_lt (gf_mul_lt a b)]
  unfold gf.mul
  rw [Nat.mod_eq_of_lt (Nat.mod_lt _ (by norm_num)),
    Nat.mod_eq_of_lt (Nat.mod_lt _ (by norm_num))]

theorem toGF_zero : toGF 0 = 0 := rfl

theorem toGF_foldl_xor (q : Nat) (g : Nat → Nat) :
    toGF ((List.range q).foldl (fun acc i => acc ^^^ g i) 0) =
      ∑ i : Fin q, toGF (g i.val) := by
  induction q with
  | zero => simp [toGF_zero]
  | succ n ih =>
    rw [List.range_succ, List.foldl_append, foldl_xor_init, toGF_xor, ih,
      Fin.sum_univ_castSucc]
    simp only [List.foldl_cons, List.foldl_nil, Nat.zero_xor, Fin.coe_castSucc,
      Fin.val_last]

theorem foldl_xor_lt {α : Type} {l : List α} (f : α → Nat)
    (hf : ∀ x ∈ l, f x < 256) :
    l.foldl (fun acc x => acc ^^^ f x) 0 < 256 := by
  induction l with
  | nil => norm_num
  | cons x xs ih =>
    rw [List.foldl_cons, foldl_xor_init]
    refine Nat.xor_lt_two_pow (n := 8) ?_ (ih fun y hy => hf y (by simp [hy]))
    simpa using hf x (by simp)

/-- The coefficient at row `i`, column `j` of the generated encoding matrix. -/
def genEntry (t : CodeType) (k i j : Nat) : Nat :=
  match t with
  | .ReedSolomon => rsMatrixEntry k i j
  | .Cauchy => cauchyMatrixEntry k i j

theorem genEntry_lt (t : CodeType) (k i j : Nat) : genEntry t k i j < 256 := by
  cases t
  · exact rsMatrixEntry_lt k i j
  · exact cauchyMatrixEntry_lt k i j

theorem encode_matrix_getD (k m : Nat) (t : CodeType) {i j : Nat}
    (hi : i < k + m) (hj : j < k) :
    (ErasureCode.new k m t).encode_matrix.getD (i * k + j) 0 = genEntry t k i j := by
  have h : ∀ g : Nat → Nat → Nat,
      (((List.range (k + m)).flatMap fun a => (List.range k).map fun b => g a b).getD
        (i * k + j) 0) = g i j := by
    intro g
    rw [flatMap_getD _ _ k (fun a _ => by rw [List.length_map, List.length_range])
      i (by simpa using hi) j hj 0]
    rw [List.get_eq_getElem, List.getElem_range, getD_map_range _ hj]
  cases t
  · exact h fun a b => rsMatrixEntry k a b
  · exact h fun a b => cauchyMatrixEntry k a b

theorem genEntry_identity (t : CodeType) {k i j : Nat} (hi : i < k) :
    genEntry t k i j = if i = j then 1 else 0 := by
  cases t <;> simp [genEntry, rsMatrixEntry, cauchyMatrixEntry, hi]

theorem getD_append_left {α : Type} {l₁ l₂ : List α} {i : Nat} (h : i < l₁.length)
    (d : α) : (l₁ ++ l₂).getD i d = l₁.getD i d :=
  List.getD_append _ _ _ _ h

theorem getD_append_right {α : Type} {l₁ l₂ : List α} {i : Nat} (h : l₁.length ≤ i)
    (d : α) : (l₁ ++ l₂).getD i d = l₂.getD (i - l₁.length) d := by
  rw [List.getD_eq_getElem?_getD, List.getElem?_append, if_neg (by omega),
    ← List.getD_eq_getElem?_getD]

theorem toGF_one : toGF 1 = 1 := rfl

/-- Every original stripe byte (data or parity produced by `encode_impl`) is the
corresponding row of the encoding matrix applied to the data bytes at that
position. -/
theorem stripe_mulVec (k m L : Nat) (t : CodeType) (data : List Block)
    (hk : 0 < k)
    (hdlen : data.length = k) (hdL : ∀ b ∈ data, b.length = L)
    {i : Nat} (hi : i < k + m) {p : Nat} (hp : p < L) :
    toGF (((data ++ (ErasureCode.new k m t).encode_impl data).getD i []).getD p 0) =
      (matOfFlat (ErasureCode.new k m t).encode_matrix (k + m) k).mulVec
        (fun c => toGF ((data.getD c.val []).getD p 0)) ⟨i, hi⟩ := by
  set self := ErasureCode.new k m t with hself
  have hdpos : 0 < data.length := by omega
  have hhead : (data.headD []).length = L := by
    rw [headD_eq_getD, List.getD_eq_getElem _ _ hdpos]
    exact hdL _ (List.getElem_mem hdpos)
  rw [Matrix.mulVec, Matrix.dotProduct]
  rcases Nat.lt_or_ge i k with hik | hik
  · -- a source block: the matrix row is an identity row
    rw [getD_append_left (by omega) []]
    have hrow : ∀ j : Fin k,
        matOfFlat self.encode_matrix (k + m) k ⟨i, hi⟩ j *
          toGF ((data.getD j.val []).getD p 0) =
        if (⟨i, by omega⟩ : Fin k) = j then toGF ((data.getD j.val []).getD p 0)
        else 0 := by
      intro j
      rw [matOfFlat_apply]
      show toGF (self.encode_matrix.getD (i * k + j.val) 0) * _ = _
      rw [encode_matrix_getD k m t hi j.isLt, genEntry_identity t hik]
      by_cases hij : i = j.val
      · rw [if_pos hij, toGF_one, one_mul, if_pos (Fin.ext hij)]
      · rw [if_neg hij, toGF_zero, zero_mul,
          if_neg (fun hc => hij (congrArg Fin.val hc))]
    rw [Finset.sum_congr rfl fun j _ => hrow j, Finset.sum_ite_eq]
    simp
  · -- a parity block: the row is the encode-table row
    rw [getD_append_right (by omega) []]
    have himpl : self.encode_impl data =
        ec.encode_data L self.k self.m self.encode_gf_table data := by
      unfold ErasureCode.encode_impl
      rw [hhead]
    rw [himpl, hdlen]
    have him : i - k < m := by omega
    rw [ec.encode_data, getD_map_range _ (by rw [new_m]; exact him),
      getD_map_range _ hp, new_k, toGF_foldl_xor]
    refine Finset.sum_congr rfl fun c _ => ?_
    rw [toGF_mul, matOfFlat_apply]
    congr 2
    show self.encode_gf_table.getD ((i - k) * k + c.val) 0 =
      self.encode_matrix.getD (i * k + c.val) 0
    show (self.encode_matrix.drop (k * k)).getD ((i - k) * k + c.val) 0 = _
    rw [getD_drop]
    congr 1
    obtain ⟨e, rfl⟩ := Nat.exists_eq_add_of_le hik
    have h1 : k + e - k = e := by omega
    rw [h1]
    ring

/-! ## Claim C1 infrastructure: survivors, ranks and normalized erasures -/

theorem enumFrom_filter_map_snd {α : Type} (pred : Nat → Bool) (d : α) :
    ∀ (blocks : List α) (off : Nat),
      ((List.enumFrom off blocks).filter fun pr => pred pr.1).map Prod.snd =
        ((List.range' off blocks.length).filter pred).map fun i => blocks.getD (i - off) d := by
  intro blocks
  induction blocks with
  | nil => intro off; rfl
  | cons b bs ih =>
    intro off
    rw [List.enumFrom_cons, List.length_cons, List.range'_succ]
    by_cases hp : pred off = true
    · simp only [List.filter_cons, hp, if_true, List.map_cons, Nat.sub_self,
        List.getD_cons_zero]
      rw [ih (off + 1)]
      refine congrArg _ (List.map_congr_left fun i hi => ?_)
      have hge : off + 1 ≤ i := by
        have := List.mem_range'.mp (List.mem_of_mem_filter hi)
        omega
      have hsub : i - off = (i - (off + 1)) + 1 := by omega
      rw [hsub, List.getD_cons_succ]
    · have hp2 : pred off = false := by simpa using hp
      simp only [List.filter_cons, hp2, Bool.false_eq_true, if_false]
      rw [ih (off + 1)]
      refine List.map_congr_left fun i hi => ?_
      have hge : off + 1 ≤ i := by
        have := List.mem_range'.mp (List.mem_of_mem_filter hi)
        omega
      have hsub : i - off = (i - (off + 1)) + 1 := by omega
      rw [hsub, List.getD_cons_succ]

theorem enum_filter_map_snd {α : Type} (pred : Nat → Bool) (d : α) (blocks : List α) :
    ((blocks.enum.filter fun pr => pred pr.1).map Prod.snd) =
      ((List.range blocks.length).filter pred).map fun i => blocks.getD i d := by
  have h := enumFrom_filter_map_snd pred d blocks 0
  rw [← List.range_eq_range'] at h
  exact h.trans (List.map_congr_left fun i _ => by rw [Nat.sub_zero])

theorem countP_or_disjoint {α : Type} (l : List α) (p q : α → Bool)
    (h : ∀ a ∈ l, ¬(p a = true ∧ q a = true)) :
    (l.countP fun a => p a || q a) = l.countP p + l.countP q := by
  induction l with
  | nil => rfl
  | cons x xs ih =>
    rw [List.countP_cons, List.countP_cons, List.countP_cons,
      ih fun a ha => h a (by simp [ha])]
    have hx := h x (by simp)
    by_cases hp : p x = true <;> by_cases hq : q x = true <;>
      simp [hp, hq] at hx ⊢ <;> omega

theorem countP_add_countP_not {α : Type} (l : List α) (p : α → Bool) :
    l.countP p + (l.countP fun a => ¬ p a) = l.length := by
  induction l with
  | nil => rfl
  | cons x xs ih =>
    rw [List.countP_cons, List.countP_cons, List.length_cons]
    by_cases hp : p x = true
    · rw [if_pos hp, if_neg (by simp [hp])]
      omega
    · rw [if_neg hp, if_pos (by simpa using hp)]
      omega

theorem range_filter_mem_length {es : List Nat} (hnd : es.Nodup) (i : Nat) :
    ((List.range i).filter fun j => es.contains j).length =
      (es.filter fun e => e < i).length := by
  induction es with
  | nil => simp
  | cons x xs ih =>
    have hx : x ∉ xs := (List.nodup_cons.mp hnd).1
    have hnd' : xs.Nodup := (List.nodup_cons.mp hnd).2
    rw [← List.countP_eq_length_filter, ← List.countP_eq_length_filter]
    have hcong : (List.range i).countP (fun j => (x :: xs).contains j) =
        (List.range i).countP fun j => (j == x) || xs.contains j := by
      refine List.countP_congr fun j _ => ?_
      constructor
      · intro hj
        have : j ∈ x :: xs := by simpa using hj
        rcases List.mem_cons.mp this with hj2 | hj2
        · simp [hj2]
        · simp [hj2]
      · intro hj
        rcases Bool.or_eq_true_iff.mp hj with hj2 | hj2
        · have : j = x := by simpa using hj2
          simp [this]
        · have : j ∈ xs := by simpa using hj2
          simp [this]
    rw [hcong, countP_or_disjoint _ _ _ (fun a _ hboth => by
      have h1 : a = x := by simpa using hboth.1
      have h2 : a ∈ xs := by simpa using hboth.2
      exact hx (h1 ▸ h2))]
    rw [List.countP_cons]
    have hcount : (List.range i).countP (fun j => j == x) = if x < i then 1 else 0 := by
      have heq : (List.range i).countP (fun j => j == x) = (List.range i).count x := by
        rfl
      rw [heq]
      by_cases hxi : x < i
      · rw [List.count_eq_one_of_mem (List.nodup_range i) (List.mem_range.mpr hxi),
          if_pos hxi]
      · rw [List.count_eq_zero_of_not_mem (fun hc => hxi (List.mem_range.mp hc)),
          if_neg hxi]
    rw [hcount, List.countP_eq_length_filter (fun j => xs.contains j) (List.range i),
      ih hnd', List.countP_eq_length_filter]
    simp only [decide_eq_true_eq]
    omega

theorem sorted_filter_lt_take {es : List Nat} (hs : es.Sorted (· < ·)) :
    ∀ (r : Nat) (hr : r < es.length),
      (es.filter fun e => e < es.get ⟨r, hr⟩) = es.take r := by
  induction es with
  | nil => intro r hr; simp at hr
  | cons x xs ih =>
    intro r hr
    have hx : ∀ b ∈ xs, x < b := (List.sorted_cons.mp hs).1
    have hs' : xs.Sorted (· < ·) := (List.sorted_cons.mp hs).2
    cases r with
    | zero =>
      show (x :: xs).filter (fun e => e < x) = []
      rw [List.filter_cons_of_neg (by simp), List.filter_eq_nil_iff]
      intro e he
      simp only [decide_eq_true_eq, not_lt]
      exact le_of_lt (hx e he)
    | succ q =>
      have hq : q < xs.length := by simpa using Nat.lt_of_succ_lt_succ (by simpa using hr)
      show (x :: xs).filter (fun e => e < xs.get ⟨q, hq⟩) = x :: xs.take q
      rw [List.filter_cons_of_pos (by
        simpa using hx _ (List.get_mem xs q hq)), ih hs' q hq]

theorem sorted_lt_of_sorted_le_nodup {es : List Nat} (hs : es.Sorted (· ≤ ·))
    (hnd : es.Nodup) : es.Sorted (· < ·) :=
  (hs.and hnd).imp fun h => lt_of_le_of_ne h.1 h.2

theorem rank_eq {es : List Nat} (hsorted : es.Sorted (· ≤ ·)) (hnd : es.Nodup)
    (r : Nat) (hr : r < es.length) :
    ((List.range (es.get ⟨r, hr⟩)).filter fun j => es.contains j).length = r := by
  rw [range_filter_mem_length hnd,
    sorted_filter_lt_take (sorted_lt_of_sorted_le_nodup hsorted hnd) r hr,
    List.length_take]
  omega

/-! ## Claim C9 infrastructure: `GF` reading of the scalar inverse -/

theorem gf_inv_mod (a : Nat) : gf.inv (a % 256) = gf.inv a := by
  unfold gf.inv
  rw [Nat.mod_eq_of_lt (Nat.mod_lt _ (by norm_num))]

theorem toGF_inv (a : Nat) : toGF (gf.inv a) = (toGF a)⁻¹ := by
  refine GF.val_injective ?_
  show gf.inv a % 256 = gf.inv (a % 256)
  rw [Nat.mod_eq_of_lt (gf_inv_lt a), gf_inv_mod]

theorem GF_add_eq_zero_iff {a b : GF} : a + b = 0 ↔ a = b := by
  constructor
  · intro h
    have hv : a.val ^^^ b.val = 0 := congrArg GF.val h
    exact GF.val_injective (Nat.xor_eq_zero.mp hv)
  · intro h
    subst h
    exact GF.val_injective (Nat.xor_self _)

theorem toGF_inj {a b : Nat} (ha : a < 256) (hb : b < 256) (h : toGF a = toGF b) :
    a = b := by
  have hv := congrArg GF.val h
  rwa [toGF_val ha, toGF_val hb] at hv

/-! ## Claim C9 infrastructure: Cauchy survivor submatrices are nonsingular

The survivor matrix of a Cauchy engine selects `k` distinct rows of the
systematic Cauchy encoding matrix.  Identity rows (index < k) pin their column
of any kernel vector to zero; the remaining Cauchy rows force the rest of the
kernel to zero by the classical rational-function argument: the numerator
polynomial of the kernel relation has more distinct roots than its degree. -/

theorem cauchy_submatrix_det_ne_zero (k n : Nat) (hkn : k ≤ n) (hn : n ≤ 256)
    (x : Fin k → Nat) (hinj : Function.Injective x) (hlt : ∀ r, x r < n) :
    (Matrix.of fun r c : Fin k => toGF (cauchyMatrixEntry k (x r) c.val)).det ≠ 0 := by
  classical
  set M := Matrix.of fun r c : Fin k => toGF (cauchyMatrixEntry k (x r) c.val) with hMdef
  intro hdet
  obtain ⟨v, hv0, hvM⟩ := Matrix.exists_mulVec_eq_zero_iff.mpr hdet
  have hrow : ∀ r : Fin k, ∑ c : Fin k, M r c * v c = 0 := by
    intro r
    have h0 := congrFun hvM r
    rw [Matrix.mulVec, Matrix.dotProduct] at h0
    simpa using h0
  -- identity rows force their column of v to zero
  have hid : ∀ (r : Fin k) (h : x r < k), v ⟨x r, h⟩ = 0 := by
    intro r h
    have hterm : ∀ c : Fin k, M r c * v c = if c = (⟨x r, h⟩ : Fin k) then v c else 0 := by
      intro c
      have hMrc : M r c = if c = (⟨x r, h⟩ : Fin k) then 1 else 0 := by
        show toGF (cauchyMatrixEntry k (x r) c.val) = _
        unfold cauchyMatrixEntry
        rw [if_pos h]
        by_cases hc : c = (⟨x r, h⟩ : Fin k)
        · rw [if_pos (show x r = c.val by rw [hc]), if_pos hc]
          exact toGF_one
        · rw [if_neg (fun hxc => hc (Fin.ext hxc.symm)), if_neg hc]
          exact toGF_zero
      rw [hMrc]
      by_cases hc : c = (⟨x r, h⟩ : Fin k)
      · rw [if_pos hc, if_pos hc, one_mul]
      · rw [if_neg hc, if_neg hc, zero_mul]
    have hsum := hrow r
    rw [Finset.sum_congr rfl fun c _ => hterm c,
      Finset.sum_ite_eq' Finset.univ (⟨x r, h⟩ : Fin k) v,
      if_pos (Finset.mem_univ _)] at hsum
    exact hsum
  -- the support of v and the identity/Cauchy row split
  set T := Finset.univ.filter (fun c : Fin k => v c ≠ 0) with hTdef
  set A := Finset.univ.filter (fun r : Fin k => x r < k) with hAdef
  set B := Finset.univ.filter (fun r : Fin k => ¬ x r < k) with hBdef
  have hABcard : A.card + B.card = k := by
    rw [hAdef, hBdef, Finset.filter_card_add_filter_neg_card_eq_card,
      Finset.card_univ, Fintype.card_fin]
  have hTA : ∀ c ∈ T, ∀ r ∈ A, x r ≠ c.val := by
    intro c hc r hr hxc
    have hrk : x r < k := (Finset.mem_filter.mp hr).2
    have hvc : v c ≠ 0 := (Finset.mem_filter.mp hc).2
    have hce : (⟨x r, hrk⟩ : Fin k) = c := Fin.ext hxc
    rw [← hce] at hvc
    exact hvc (hid r hrk)
  have hTcard : T.card ≤ B.card := by
    have hTim : (T.image fun c : Fin k => c.val).card = T.card :=
      Finset.card_image_of_injOn fun a _ b _ hab => Fin.ext hab
    have hAim : (A.image x).card = A.card :=
      Finset.card_image_of_injOn fun a _ b _ hab => hinj hab
    have hdisj : Disjoint (T.image fun c : Fin k => c.val) (A.image x) := by
      rw [Finset.disjoint_left]
      intro a haT haA
      obtain ⟨c, hc, hceq⟩ := Finset.mem_image.mp haT
      obtain ⟨r, hr, hreq⟩ := Finset.mem_image.mp haA
      exact hTA c hc r hr (by rw [hreq, ← hceq])
    have hsub : (T.image fun c : Fin k => c.val) ∪ A.image x ⊆ Finset.range k := by
      intro a ha
      rcases Finset.mem_union.mp ha with ha | ha
      · obtain ⟨c, _, hceq⟩ := Finset.mem_image.mp ha
        exact Finset.mem_range.mpr (hceq ▸ c.isLt)
      · obtain ⟨r, hr, hreq⟩ := Finset.mem_image.mp ha
        exact Finset.mem_range.mpr (hreq ▸ (Finset.mem_filter.mp hr).2)
    have hcard := Finset.card_le_card hsub
    rw [Finset.card_union_of_disjoint hdisj, hTim, hAim, Finset.card_range] at hcard
    omega
  -- the Cauchy rows, read over the support of v
  have hMB : ∀ r ∈ B, ∀ c : Fin k, M r c = (toGF (x r) + toGF c.val)⁻¹ := by
    intro r hr c
    have hrk : ¬ x r < k := (Finset.mem_filter.mp hr).2
    show toGF (cauchyMatrixEntry k (x r) c.val) = _
    unfold cauchyMatrixEntry
    rw [if_neg hrk, toGF_inv, toGF_xor]
  have hBeq : ∀ r ∈ B, ∑ c ∈ T, (toGF (x r) + toGF c.val)⁻¹ * v c = 0 := by
    intro r hr
    have hz : ∀ c ∈ Finset.univ, c ∉ T → M r c * v c = 0 := by
      intro c _ hcT
      have hvc : v c = 0 := by
        by_contra hne
        exact hcT (Finset.mem_filter.mpr ⟨Finset.mem_univ _, hne⟩)
      rw [hvc, mul_zero]
    have hTsum : ∑ c ∈ T, M r c * v c = 0 := by
      rw [Finset.sum_subset (Finset.subset_univ T) hz]
      exact hrow r
    rw [← hTsum]
    exact Finset.sum_congr rfl fun c _ => by rw [hMB r hr c]
  have hden : ∀ r ∈ B, ∀ c : Fin k, toGF (x r) + toGF c.val ≠ 0 := by
    intro r hr c h0
    have hrk : ¬ x r < k := (Finset.mem_filter.mp hr).2
    have hck := c.isLt
    have heq : x r = c.val :=
      toGF_inj (Nat.lt_of_lt_of_le (hlt r) hn)
        (Nat.lt_of_lt_of_le (Nat.lt_of_lt_of_le c.isLt hkn) hn)
        (GF_add_eq_zero_iff.mp h0)
    omega
  -- the support is nonempty, giving the numerator polynomial and its roots
  obtain ⟨c0, hc0p⟩ := Function.ne_iff.mp hv0
  have hc0 : v c0 ≠ 0 := by simpa using hc0p
  have hc0T : c0 ∈ T := Finset.mem_filter.mpr ⟨Finset.mem_univ _, hc0⟩
  have hTpos : 0 < T.card := Finset.card_pos.mpr ⟨c0, hc0T⟩
  set P : Polynomial GF :=
    ∑ c ∈ T, Polynomial.C (v c) *
      ∏ l ∈ T.erase c, (Polynomial.X + Polynomial.C (toGF l.val)) with hPdef
  have hdeg : P.natDegree < T.card := by
    have hle : P.natDegree ≤ T.card - 1 := by
      rw [hPdef]
      refine Polynomial.natDegree_sum_le_of_forall_le T _ fun c hc => ?_
      refine le_trans (Polynomial.natDegree_C_mul_le _ _) ?_
      refine le_trans (Polynomial.natDegree_prod_le _ _) ?_
      have hdsum : ∑ l ∈ T.erase c, (Polynomial.X + Polynomial.C (toGF l.val)).natDegree
          = (T.erase c).card := by
        rw [Finset.sum_congr rfl fun l _ => Polynomial.natDegree_X_add_C (toGF l.val)]
        simp
      rw [hdsum, Finset.card_erase_of_mem hc]
    omega
  have hevalB : ∀ r ∈ B, Polynomial.eval (toGF (x r)) P = 0 := by
    intro r hr
    rw [hPdef, Polynomial.eval_finset_sum]
    have hterm : ∀ c ∈ T,
        Polynomial.eval (toGF (x r)) (Polynomial.C (v c) *
          ∏ l ∈ T.erase c, (Polynomial.X + Polynomial.C (toGF l.val)))
        = ((toGF (x r) + toGF c.val)⁻¹ * v c) *
            ∏ l ∈ T, (toGF (x r) + toGF l.val) := by
      intro c hc
      rw [Polynomial.eval_mul, Polynomial.eval_C, Polynomial.eval_prod]
      have hprod : ∏ l ∈ T.erase c, Polynomial.eval (toGF (x r))
            (Polynomial.X + Polynomial.C (toGF l.val))
          = ∏ l ∈ T.erase c, (toGF (x r) + toGF l.val) :=
        Finset.prod_congr rfl fun l _ => by
          rw [Polynomial.eval_add, Polynomial.eval_X, Polynomial.eval_C]
      rw [hprod, ← Finset.mul_prod_erase T _ hc]
      conv_rhs => rw [mul_mul_mul_comm]
      rw [inv_mul_cancel₀ (hden r hr c), one_mul]
    rw [Finset.sum_congr rfl hterm, ← Finset.sum_mul, hBeq r hr, zero_mul]
  have hP0 : P = 0 := by
    refine Polynomial.eq_zero_of_natDegree_lt_card_of_eval_eq_zero' P
      (B.image fun r => toGF (x r)) ?_ ?_
    · intro z hz
      obtain ⟨r, hr, hreq⟩ := Finset.mem_image.mp hz
      rw [← hreq]
      exact hevalB r hr
    · have hBim : (B.image fun r => toGF (x r)).card = B.card :=
        Finset.card_image_of_injOn fun a _ b _ hab =>
          hinj (toGF_inj (Nat.lt_of_lt_of_le (hlt a) hn)
            (Nat.lt_of_lt_of_le (hlt b) hn) hab)
      rw [hBim]
      omega
  -- evaluate the zero polynomial at the support point `c0`
  have hzero_terms : ∀ c ∈ T, c ≠ c0 →
      Polynomial.eval (toGF c0.val)
        (Polynomial.C (v c) *
          ∏ l ∈ T.erase c, (Polynomial.X + Polynomial.C (toGF l.val))) = 0 := by
    intro c _ hcne
    rw [Polynomial.eval_mul, Polynomial.eval_C, Polynomial.eval_prod]
    have hc0mem : c0 ∈ T.erase c := Finset.mem_erase.mpr ⟨Ne.symm hcne, hc0T⟩
    rw [Finset.prod_eq_zero hc0mem (by
      rw [Polynomial.eval_add, Polynomial.eval_X, Polynomial.eval_C]
      exact GF_add_eq_zero_iff.mpr rfl), mul_zero]
  have heval0 : ∑ c ∈ T, Polynomial.eval (toGF c0.val)
      (Polynomial.C (v c) *
        ∏ l ∈ T.erase c, (Polynomial.X + Polynomial.C (toGF l.val))) = 0 := by
    have h := congrArg (Polynomial.eval (toGF c0.val)) hP0
    rw [hPdef] at h
    rw [Polynomial.eval_finset_sum, Polynomial.eval_zero] at h
    exact h
  rw [Finset.sum_eq_single c0 hzero_terms (fun h => absurd hc0T h)] at heval0
  rw [Polynomial.eval_mul, Polynomial.eval_C, Polynomial.eval_prod] at heval0
  have hprodne : ∏ l ∈ T.erase c0, Polynomial.eval (toGF c0.val)
      (Polynomial.X + Polynomial.C (toGF l.val)) ≠ 0 := by
    rw [Finset.prod_ne_zero_iff]
    intro l hl
    rw [Polynomial.eval_add, Polynomial.eval_X, Polynomial.eval_C]
    intro h0
    have hlne : l ≠ c0 := (Finset.mem_erase.mp hl).1
    refine hlne (Fin.ext ?_)
    have hlk : l.val < 256 := Nat.lt_of_lt_of_le (Nat.lt_of_lt_of_le l.isLt hkn) hn
    have hc0k : c0.val < 256 := Nat.lt_of_lt_of_le (Nat.lt_of_lt_of_le c0.isLt hkn) hn
    exact (toGF_inj hc0k hlk (GF_add_eq_zero_iff.mp h0)).symm
  rcases mul_eq_zero.mp heval0 with hvc | hpc
  · exact hc0 hvc
  · exact hprodne hpc

/-! ## Survivor selection: the first `k` non-erased block indices -/

theorem survivors_length {es : List Nat} (hnd : es.Nodup) {n : Nat}
    (hmem : ∀ e ∈ es, e < n) :
    ((List.range n).filter fun i => ¬ es.contains i).length = n - es.length := by
  have h1 := countP_add_countP_not (List.range n) es.contains
  rw [List.countP_eq_length_filter, List.countP_eq_length_filter, List.length_range] at h1
  have h2 : ((List.range n).filter es.contains).length = es.length := by
    show ((List.range n).filter fun j => es.contains j).length = es.length
    rw [range_filter_mem_length hnd n]
    have hself : es.filter (fun e => e < n) = es :=
      List.filter_eq_self.mpr fun e he => by simpa using hmem e he
    rw [hself]
  omega

/-- The survivor index list: the first `k` block indices of `0..n` not named in
`es` (the `decode_index` computation of `make_decode_matrix`). -/
def selIdx (n k : Nat) (es : List Nat) : List Nat :=
  ((List.range n).filter fun i => ¬ es.contains i).take k

theorem selIdx_length {n k : Nat} {es : List Nat} (hnd : es.Nodup)
    (hmem : ∀ e ∈ es, e < n) (hk : es.length + k ≤ n) :
    (selIdx n k es).length = k := by
  rw [selIdx, List.length_take, survivors_length hnd hmem]
  omega

theorem selIdx_sorted (n k : Nat) (es : List Nat) : (selIdx n k es).Sorted (· < ·) :=
  List.Pairwise.sublist ((List.take_sublist _ _).trans (List.filter_sublist _))
    (List.pairwise_lt_range n)

theorem selIdx_mem_lt {n k : Nat} {es : List Nat} {i : Nat} (h : i ∈ selIdx n k es) :
    i < n :=
  List.mem_range.mp (List.mem_of_mem_filter (List.take_subset _ _ h))

theorem selIdx_not_erased {n k : Nat} {es : List Nat} {i : Nat} (h : i ∈ selIdx n k es) :
    es.contains i = false := by
  have h2 := List.of_mem_filter (List.take_subset _ _ h)
  simpa using h2

theorem survCode_eq_selIdx (self : ErasureCode) (es : List Nat) :
    survCode self es = (selIdx self.block_num self.source_num es).flatMap
      fun i => (self.encode_matrix.drop (self.source_num * i)).take self.source_num := rfl

theorem survCode_getD (self : ErasureCode) (es : List Nat)
    (hmat : self.encode_matrix.length = self.block_num * self.source_num)
    (hsel : (selIdx self.block_num self.source_num es).length = self.source_num)
    {r c : Nat} (hr : r < self.source_num) (hc : c < self.source_num) :
    (survCode self es).getD (r * self.source_num + c) 0 =
      self.encode_matrix.getD
        (self.source_num * ((selIdx self.block_num self.source_num es).getD r 0) + c) 0 := by
  rw [survCode_eq_selIdx]
  have hchunk : ∀ a ∈ selIdx self.block_num self.source_num es,
      ((self.encode_matrix.drop (self.source_num * a)).take self.source_num).length
        = self.source_num := by
    intro a ha
    have han : a < self.block_num := selIdx_mem_lt ha
    rw [List.length_take, List.length_drop, hmat]
    have hb : self.source_num * a + self.source_num ≤ self.block_num * self.source_num := by
      have h1 : self.source_num * (a + 1) ≤ self.source_num * self.block_num :=
        Nat.mul_le_mul_left _ (by omega)
      calc self.source_num * a + self.source_num = self.source_num * (a + 1) := by ring
        _ ≤ self.source_num * self.block_num := h1
        _ = self.block_num * self.source_num := Nat.mul_comm _ _
    omega
  rw [flatMap_getD _ _ self.source_num hchunk r (by omega) c hc 0]
  rw [getD_take hc, getD_drop, List.get_eq_getElem,
    ← List.getD_eq_getElem _ 0 (by omega)]

/-- For a Cauchy engine with `k + m ≤ 256`, the survivor-matrix inversion of
every normalized erasure set succeeds. -/
theorem cauchy_survivor_invert_some (k m : Nat) (hn : k + m ≤ 256) (es : List Nat)
    (hnd : es.Nodup) (hmem : ∀ e ∈ es, e < k + m) (hlen : es.length ≤ m) :
    ∃ invm, gf.invert_matrix (survCode (ErasureCode.new k m .Cauchy) es) k = some invm := by
  have hmat : (ErasureCode.new k m .Cauchy).encode_matrix.length = (k + m) * k :=
    encode_matrix_length k m .Cauchy
  have hsel : (selIdx (k + m) k es).length = k :=
    selIdx_length hnd hmem (by omega)
  have hsorted : (selIdx (k + m) k es).Sorted (· < ·) := selIdx_sorted _ _ _
  have hgetlt : ∀ r : Fin k, (selIdx (k + m) k es).getD r.val 0 < k + m := by
    intro r
    have hrl : r.val < (selIdx (k + m) k es).length := by rw [hsel]; exact r.isLt
    have hrmem : (selIdx (k + m) k es).getD r.val 0 ∈ selIdx (k + m) k es := by
      rw [List.getD_eq_getElem _ 0 hrl]
      exact List.getElem_mem hrl
    exact selIdx_mem_lt hrmem
  have hinj : Function.Injective fun r : Fin k => (selIdx (k + m) k es).getD r.val 0 := by
    intro a b hab
    have ha : a.val < (selIdx (k + m) k es).length := by rw [hsel]; exact a.isLt
    have hb2 : b.val < (selIdx (k + m) k es).length := by rw [hsel]; exact b.isLt
    simp only at hab
    rw [List.getD_eq_getElem _ 0 ha, List.getD_eq_getElem _ 0 hb2] at hab
    have h2 := (List.Sorted.get_strictMono hsorted).injective
      (show (selIdx (k + m) k es).get ⟨a.val, ha⟩ =
        (selIdx (k + m) k es).get ⟨b.val, hb2⟩ from hab)
    have h3 := congrArg Fin.val h2
    exact Fin.ext h3
  have hdet : (matOfFlat (survCode (ErasureCode.new k m .Cauchy) es) k k).det ≠ 0 := by
    have hMeq : matOfFlat (survCode (ErasureCode.new k m .Cauchy) es) k k =
        Matrix.of fun r c : Fin k =>
          toGF (cauchyMatrixEntry k ((selIdx (k + m) k es).getD r.val 0) c.val) := by
      ext r c
      rw [matOfFlat_apply]
      rw [show (survCode (ErasureCode.new k m .Cauchy) es).getD (r.val * k + c.val) 0 =
          (ErasureCode.new k m .Cauchy).encode_matrix.getD
            (k * ((selIdx (k + m) k es).getD r.val 0) + c.val) 0 from
        survCode_getD _ es hmat hsel r.isLt c.isLt]
      rw [Nat.mul_comm k _]
      rw [encode_matrix_getD k m .Cauchy (hgetlt r) c.isLt]
      rfl
    rw [hMeq]
    exact cauchy_submatrix_det_ne_zero k (k + m) (by omega) hn _ hinj hgetlt
  cases hopt : gf.invert_matrix (survCode (ErasureCode.new k m .Cauchy) es) k with
  | none => exact absurd (invert_matrix_none_iff.mp hopt) hdet
  | some invm => exact ⟨invm, rfl⟩

/-! ## Normalized erasure lists -/

theorem check_decode_erasure_ok {self : ErasureCode} {E es : List Nat}
    (h : self.check_decode_erasure E = .ok es) :
    es = (List.insertionSort (· ≤ ·) E).dedup ∧ es.length ≤ self.code_num ∧
      ∀ e ∈ es, e < self.block_num := by
  simp only [ErasureCode.check_decode_erasure] at h
  split at h
  · exact absurd h (by simp)
  · split at h
    · exact absurd h (by simp)
    · rename_i h1 h2
      have hes : (List.insertionSort (· ≤ ·) E).dedup = es := by simpa using h
      refine ⟨hes.symm, ?_, ?_⟩
      · rw [← hes]; omega
      · intro e he
        rw [← hes] at he
        by_contra hge
        exact h2 (List.any_eq_true.mpr ⟨e, he, by simp only [decide_eq_true_eq]; omega⟩)

theorem normalized_sorted (E : List Nat) :
    ((List.insertionSort (· ≤ ·) E).dedup).Sorted (· ≤ ·) :=
  List.Pairwise.sublist (List.dedup_sublist _) (List.sorted_insertionSort (· ≤ ·) E)

theorem normalized_nodup (E : List Nat) :
    ((List.insertionSort (· ≤ ·) E).dedup).Nodup := List.nodup_dedup _

theorem normalized_mem (E : List Nat) (e : Nat) :
    e ∈ (List.insertionSort (· ≤ ·) E).dedup ↔ e ∈ E := by
  rw [List.mem_dedup]
  exact (List.perm_insertionSort (· ≤ ·) E).mem_iff

/-! ## Error shapes of the decode validation steps -/

theorem check_decode_erasure_error_shape {self : ErasureCode} {E : List Nat} {e : Error}
    (h : self.check_decode_erasure E = .error e) (msg : String) :
    e ≠ .InternalError msg := by
  simp only [ErasureCode.check_decode_erasure] at h
  split at h
  · injection h with h2
    rw [← h2]
    simp
  · split at h
    · injection h with h2
      rw [← h2]
      simp
    · exact absurd h (by simp)

theorem check_decode_buffer_error_shape {self : ErasureCode} {data code : List Block}
    {e : Error} (h : self.check_decode_buffer data code = .error e) (msg : String) :
    e ≠ .InternalError msg := by
  simp only [ErasureCode.check_decode_buffer] at h
  split at h
  · injection h with h2
    rw [← h2]
    simp
  · split at h
    · injection h with h2
      rw [← h2]
      simp
    · split at h
      · injection h with h2
        rw [← h2]
        simp
      · split at h
        · injection h with h2
          rw [← h2]
          simp
        · exact absurd h (by simp)

theorem make_table_from_matrix_error_shape {matrix : List Nat} {cols rows : Nat} {e : Error}
    (h : make_table_from_matrix matrix cols rows = .error e) (msg : String) :
    e ≠ .InternalError msg := by
  simp only [make_table_from_matrix] at h
  split at h
  · injection h with h2
    rw [← h2]
    simp
  · exact absurd h (by simp)

theorem cauchy_make_decode_table_impl_shape (k m : Nat) (hn : k + m ≤ 256)
    {es : List Nat} (hnd : es.Nodup) (hmem : ∀ e ∈ es, e < k + m) (hlen : es.length ≤ m)
    (msg : String) :
    (ErasureCode.new k m .Cauchy).make_decode_table_impl es ≠ .error (.InternalError msg) := by
  obtain ⟨invm, hinv⟩ := cauchy_survivor_invert_some k m hn es hnd hmem hlen
  intro hcontra
  simp only [ErasureCode.make_decode_table_impl] at hcontra
  rw [make_decode_matrix_eq] at hcontra
  rw [show gf.invert_matrix (survCode (ErasureCode.new k m .Cauchy) es)
      (ErasureCode.new k m .Cauchy).k = some invm from hinv] at hcontra
  cases hmt : make_table_from_matrix
      ((dmat (ErasureCode.new k m .Cauchy) es invm).take
        ((ErasureCode.new k m .Cauchy).k * es.length))
      (ErasureCode.new k m .Cauchy).k es.length with
  | error e2 =>
    simp only [hmt, Except.error.injEq] at hcontra
    exact make_table_from_matrix_error_shape hmt msg hcontra
  | ok tbl =>
    simp only [hmt] at hcontra
    exact absurd hcontra (by simp)

/-- Claim C9 (amended): for every Cauchy engine whose stripe fits the field
(`k + m ≤ 256`) and every erasure list, `make_decode_table` and `decode` never
return `InternalError` — the survivor submatrix inversion always succeeds; a
Reed-Solomon engine's inversion may fail: for k=4, m=22 the erasure set leaving
survivor rows {1, 4, 15, 25} yields `InternalError` from `make_decode_table`,
while the k=4, m=2 Reed-Solomon engine with erasures [3, 4] succeeds. -/
theorem C9_scheme_contrast (k m : Nat) (hn : k + m ≤ 256) (E : List Nat)
    (data code : List Block) (msg : String) :
    (ErasureCode.new k m .Cauchy).make_decode_table E ≠ .error (.InternalError msg) ∧
      ((ErasureCode.new k m .Cauchy).decode data code E).1 ≠ .error (.InternalError msg) ∧
      (ErasureCode.new 4 22 .ReedSolomon).make_decode_table
          ((List.range 26).filter fun i => ¬ i ∈ ([1, 4, 15, 25] : List Nat)) =
        .error (.InternalError "fail to invert matrix") ∧
      ((ErasureCode.new 4 2 .ReedSolomon).make_decode_table [3, 4]).isOk = true := by
  have hmdti : ∀ es : List Nat,
      (ErasureCode.new k m .Cauchy).check_decode_erasure E = .ok es →
      (ErasureCode.new k m .Cauchy).make_decode_table_impl es ≠
        .error (.InternalError msg) := by
    intro es hce
    obtain ⟨heq, hlen, hmem⟩ := check_decode_erasure_ok hce
    have hnd : es.Nodup := heq ▸ normalized_nodup E
    have hlen' : es.length ≤ m := hlen
    have hmem' : ∀ e ∈ es, e < k + m := hmem
    exact cauchy_make_decode_table_impl_shape k m hn hnd hmem' hlen' msg
  refine ⟨?_, ?_, by rfl, by rfl⟩
  · cases hce : (ErasureCode.new k m .Cauchy).check_decode_erasure E with
    | error e =>
      intro hcontra
      simp only [ErasureCode.make_decode_table, hce, Except.error.injEq] at hcontra
      exact check_decode_erasure_error_shape hce msg hcontra
    | ok es =>
      intro hcontra
      simp only [ErasureCode.make_decode_table, hce] at hcontra
      exact hmdti es hce hcontra
  · cases hce : (ErasureCode.new k m .Cauchy).check_decode_erasure E with
    | error e =>
      intro hcontra
      simp only [ErasureCode.decode, hce, Except.error.injEq] at hcontra
      exact check_decode_erasure_error_shape hce msg hcontra
    | ok es =>
      cases hcb : (ErasureCode.new k m .Cauchy).check_decode_buffer data code with
      | error e =>
        intro hcontra
        simp only [ErasureCode.decode, hce, hcb, Except.error.injEq] at hcontra
        exact check_decode_buffer_error_shape hcb msg hcontra
      | ok u =>
        cases hmt : (ErasureCode.new k m .Cauchy).make_decode_table_impl es with
        | error e =>
          intro hcontra
          simp only [ErasureCode.decode, hce, hcb, hmt, Except.error.injEq] at hcontra
          exact hmdti es hce (by rw [hmt, hcontra])
        | ok tbl =>
          intro hcontra
          simp only [ErasureCode.decode, hce, hcb, hmt] at hcontra
          exact absurd hcontra (by simp)

/-- Witness for C9: the Cauchy engine (4, 2) on the repository test's erasure
set, together with the pinned Reed-Solomon contrast cases. -/
theorem C9_witness :
    (ErasureCode.new 4 2 .Cauchy).make_decode_table [3, 4] ≠
        .error (.InternalError "fail to invert matrix") ∧
      ((ErasureCode.new 4 2 .Cauchy).decode [[1], [2], [3], [4]] [[0], [0]] [3, 4]).1 ≠
        .error (.InternalError "fail to invert matrix") ∧
      (ErasureCode.new 4 22 .ReedSolomon).make_decode_table
          ((List.range 26).filter fun i => ¬ i ∈ ([1, 4, 15, 25] : List Nat)) =
        .error (.InternalError "fail to invert matrix") ∧
      ((ErasureCode.new 4 2 .ReedSolomon).make_decode_table [3, 4]).isOk = true :=
  C9_scheme_contrast 4 2 (by norm_num) [3, 4] [[1], [2], [3], [4]] [[0], [0]]
    "fail to invert matrix"

/-- Counterexample to C9 as stated, which quantifies over every engine
`with_cauchy` can build: for `k + m > 256` the parity-row indices leave the
byte range of GF(2^8), the generator's row-index arithmetic wraps modulo 256,
and two distinct parity rows can carry identical coefficients.  Here, for the
(2, 257) Cauchy engine, parity rows 2 and 258 coincide, so the valid erasure
set of all 257 other indices (count = m, every index < k + m = 259) makes the
survivor submatrix singular and `make_decode_table` returns `InternalError`
even for a Cauchy engine.  The `k + m ≤ 256` bound of the amended theorem is
therefore necessary. -/
theorem C9_counterexample :
    ((List.range 259).filter fun i => ¬ i ∈ ([2, 258] : List Nat)).length = 257 ∧
      (∀ e ∈ (List.range 259).filter fun i => ¬ i ∈ ([2, 258] : List Nat), e < 259) ∧
      (ErasureCode.new 2 257 .Cauchy).make_decode_table
          ((List.range 259).filter fun i => ¬ i ∈ ([2, 258] : List Nat)) =
        .error (.InternalError "fail to invert matrix") := by
  refine ⟨by rfl, by decide, by rfl⟩

/-! ## Claim C1 infrastructure: decode-success analysis -/

theorem contains_iff_mem {l : List Nat} {a : Nat} : l.contains a = true ↔ a ∈ l :=
  List.elem_iff

theorem contains_eq_false_iff {l : List Nat} {a : Nat} :
    l.contains a = false ↔ a ∉ l := by
  rw [← contains_iff_mem]
  cases l.contains a <;> simp

theorem make_decode_table_impl_ok {self : ErasureCode} {es : List Nat} {tbl : DecodeTable}
    (h : self.make_decode_table_impl es = .ok tbl) :
    ∃ invm, gf.invert_matrix (survCode self es) self.k = some invm ∧
      tbl.table = (dmat self es invm).take (self.k * es.length) := by
  simp only [ErasureCode.make_decode_table_impl] at h
  rw [make_decode_matrix_eq] at h
  cases hinv : gf.invert_matrix (survCode self es) self.k with
  | none =>
    simp only [hinv] at h
    exact absurd h (by simp)
  | some invm =>
    simp only [hinv] at h
    refine ⟨invm, rfl, ?_⟩
    cases hmt : make_table_from_matrix ((dmat self es invm).take (self.k * es.length))
        self.k es.length with
    | error e =>
      simp only [hmt] at h
      exact absurd h (by simp)
    | ok table =>
      simp only [hmt, Except.ok.injEq] at h
      simp only [make_table_from_matrix] at hmt
      split at hmt
      · exact absurd hmt (by simp)
      · have h2 : ec.init_tables self.k es.length
            ((dmat self es invm).take (self.k * es.length)) = table := by
          simpa using hmt
        rw [← h, ← h2]
        rfl

theorem dmat_take_getD (self : ErasureCode) (es invm : List Nat)
    (hinv : invm.length = self.k * self.k) (hble : es.length ≤ self.block_num)
    {r i : Nat} (hr : r < es.length) (hi : i < self.source_num) :
    ((dmat self es invm).take (self.source_num * es.length)).getD
        (r * self.source_num + i) 0 =
      (dmatRow self invm (es.getD r 0)).getD i 0 := by
  have hidx : r * self.source_num + i < self.source_num * es.length := by
    have h2 : (r + 1) * self.source_num = r * self.source_num + self.source_num := by ring
    have h1 : (r + 1) * self.source_num ≤ es.length * self.source_num :=
      Nat.mul_le_mul_right _ (by omega)
    have h3 : es.length * self.source_num = self.source_num * es.length := Nat.mul_comm _ _
    omega
  rw [getD_take hidx]
  unfold dmat
  have hf : ∀ a ∈ List.range self.block_num,
      ((fun r => if r < es.length then dmatRow self invm (es.getD r 0)
        else List.replicate self.source_num 0) a).length = self.source_num := by
    intro a _
    dsimp only
    split
    · exact dmatRow_length self invm _ hinv
    · rw [List.length_replicate]
  rw [flatMap_getD _ _ self.source_num hf r (by simpa using Nat.lt_of_lt_of_le hr hble) i hi 0]
  rw [List.get_eq_getElem, List.getElem_range]
  dsimp only
  rw [if_pos hr]

theorem getD_map_getD {α β : Type} (l : List α) (f : α → β) {i : Nat}
    (hi : i < l.length) (d : α) (e : β) :
    (l.map f).getD i e = f (l.getD i d) := by
  rw [List.getD_eq_getElem _ _ (by simpa using hi), List.getElem_map,
    List.getD_eq_getElem _ _ hi]

theorem encode_impl_length (self : ErasureCode) (data : List Block) :
    (self.encode_impl data).length = self.m := by
  simp only [ErasureCode.encode_impl, ec.encode_data]
  rw [List.length_map, List.length_range]

theorem encode_impl_getD (self : ErasureCode) (data : List Block) {j : Nat}
    (hj : j < self.m) :
    (self.encode_impl data).getD j [] =
      (List.range (data.headD []).length).map fun p =>
        (List.range self.k).foldl
          (fun acc i => acc ^^^ gf.mul (self.encode_gf_table.getD (j * self.k + i) 0)
            ((data.getD i []).getD p 0)) 0 := by
  simp only [ErasureCode.encode_impl, ec.encode_data]
  rw [getD_map_range _ hj]

theorem encode_impl_getD_length (self : ErasureCode) (data : List Block) {j : Nat}
    (hj : j < self.m) :
    ((self.encode_impl data).getD j []).length = (data.headD []).length := by
  rw [encode_impl_getD self data hj, List.length_map, List.length_range]

theorem encode_impl_byte_lt (self : ErasureCode) (data : List Block) (j p : Nat) :
    ((self.encode_impl data).getD j []).getD p 0 < 256 := by
  rcases Nat.lt_or_ge j self.m with hj | hj
  · rw [encode_impl_getD self data hj]
    rcases Nat.lt_or_ge p (data.headD []).length with hp | hp
    · rw [getD_map_range _ hp]
      exact foldl_xor_lt _ fun x _ => gf_mul_lt _ _
    · rw [List.getD_eq_default _ _ (by simp only [List.length_map, List.length_range]; omega)]
      norm_num
  · have hlen : (self.encode_impl data).length ≤ j := by rw [encode_impl_length]; omega
    rw [List.getD_eq_default _ _ hlen]
    simp

/-- Claim C1 (amended): whenever `decode` returns `Ok` — inversion can fail for
Reed-Solomon engines, see the counterexample — it reconstructs the stripe
exactly: for buffers that agree with the original data and parity outside the
erasure set (and hold arbitrary same-length content at erased positions), the
final data buffers equal the original data and the final code buffers equal
the original parity; with an empty erasure set nothing changes. -/
theorem C1_decode_roundtrip (k m L : Nat) (t : CodeType) (hk : 0 < k)
    (data data' code' : List Block) (E : List Nat)
    (hdlen : data.length = k) (hdL : ∀ b ∈ data, b.length = L)
    (hbytes : ∀ b ∈ data, ∀ x ∈ b, x < 256)
    (hd'len : data'.length = k) (hc'len : code'.length = m)
    (hd'L : ∀ b ∈ data', b.length = L) (hc'L : ∀ b ∈ code', b.length = L)
    (hagree : ∀ i, i < k + m → i ∉ E →
      (data' ++ code').getD i [] =
        (data ++ (ErasureCode.new k m t).encode_impl data).getD i [])
    (hok : ((ErasureCode.new k m t).decode data' code' E).1 = Except.ok ()) :
    ((ErasureCode.new k m t).decode data' code' E).2.1 = data ∧
      ((ErasureCode.new k m t).decode data' code' E).2.2 =
        (ErasureCode.new k m t).encode_impl data := by
  -- all three decode stages succeeded
  obtain ⟨es, hce⟩ : ∃ es, (ErasureCode.new k m t).check_decode_erasure E = .ok es := by
    cases h : (ErasureCode.new k m t).check_decode_erasure E with
    | error e =>
      simp only [ErasureCode.decode, h] at hok
      exact absurd hok (by simp)
    | ok es => exact ⟨es, rfl⟩
  have hcb : (ErasureCode.new k m t).check_decode_buffer data' code' = .ok () := by
    cases h : (ErasureCode.new k m t).check_decode_buffer data' code' with
    | error e =>
      simp only [ErasureCode.decode, hce, h] at hok
      exact absurd hok (by simp)
    | ok u => cases u; rfl
  obtain ⟨tbl, hmt⟩ : ∃ tbl, (ErasureCode.new k m t).make_decode_table_impl es = .ok tbl := by
    cases h : (ErasureCode.new k m t).make_decode_table_impl es with
    | error e =>
      simp only [ErasureCode.decode, hce, hcb, h] at hok
      exact absurd hok (by simp)
    | ok tbl => exact ⟨tbl, rfl⟩
  -- normalized-erasure facts
  obtain ⟨heseq, heslen0, hesmem0⟩ := check_decode_erasure_ok hce
  have hnd : es.Nodup := by rw [heseq]; exact normalized_nodup E
  have hsorted : es.Sorted (· ≤ ·) := by rw [heseq]; exact normalized_sorted E
  have hmemE : ∀ e, e ∈ es ↔ e ∈ E := by
    intro e
    rw [heseq]
    exact normalized_mem E e
  have heslen : es.length ≤ m := heslen0
  have hesmem : ∀ e ∈ es, e < k + m := hesmem0
  -- decode-table facts
  obtain ⟨invm, hinv, htbl⟩ := make_decode_table_impl_ok hmt
  have hinvlen : invm.length = k * k := invert_matrix_some_length hinv
  have hBS : matOfFlat invm k k *
      matOfFlat (survCode (ErasureCode.new k m t) es) k k = 1 :=
    (invert_matrix_some hinv).2
  -- survivor selection facts
  have hselL : (selIdx (k + m) k es).length = k := selIdx_length hnd hesmem (by omega)
  have hselL2 : (selIdx (ErasureCode.new k m t).block_num
      (ErasureCode.new k m t).source_num es).length =
      (ErasureCode.new k m t).source_num := hselL
  have hmatlen : (ErasureCode.new k m t).encode_matrix.length =
      (ErasureCode.new k m t).block_num * (ErasureCode.new k m t).source_num :=
    encode_matrix_length k m t
  have hble : es.length ≤ (ErasureCode.new k m t).block_num := by
    rw [block_num_def, new_k, new_m]
    omega
  -- buffer shapes
  have hd'pos : 0 < data'.length := by omega
  have hhead' : (data'.headD []).length = L := by
    rw [headD_eq_getD, List.getD_eq_getElem _ _ hd'pos]
    exact hd'L _ (List.getElem_mem hd'pos)
  have hdpos : 0 < data.length := by omega
  have hhead : (data.headD []).length = L := by
    rw [headD_eq_getD, List.getD_eq_getElem _ _ hdpos]
    exact hdL _ (List.getElem_mem hdpos)
  have hblocks'len : (data' ++ code').length = k + m := by
    rw [List.length_append]
    omega
  set sel' := (List.range (k + m)).filter (fun i => ¬ es.contains i) with hselEq
  have hsel'len : sel'.length = (k + m) - es.length := by
    rw [hselEq]
    exact survivors_length hnd hesmem
  have hsrc : ((data' ++ code').enum.filter fun p => ¬ es.contains p.1).map Prod.snd =
      sel'.map fun j => (data' ++ code').getD j [] := by
    have h := enum_filter_map_snd (fun i => ¬ es.contains i) ([] : Block) (data' ++ code')
    rw [hblocks'len] at h
    exact h
  have hagree2 : ∀ i, i < k + m → es.contains i = false →
      (data' ++ code').getD i [] =
        (data ++ (ErasureCode.new k m t).encode_impl data).getD i [] := by
    intro i hi hcf
    refine hagree i hi fun hiE => ?_
    exact (contains_eq_false_iff.mp hcf) ((hmemE i).mpr hiE)
  have hrank : ∀ (r : Nat), r < es.length →
      ((List.range (es.getD r 0)).filter fun j => es.contains j).length = r := by
    intro r hr
    rw [List.getD_eq_getElem _ 0 hr]
    exact rank_eq hsorted hnd r hr
  -- each survivor read is the corresponding encoding-matrix row applied to the data
  have hsurv_byte : ∀ (r' : Fin k) (p : Nat), p < L →
      toGF (((sel'.map fun j => (data' ++ code').getD j []).getD r'.val []).getD p 0) =
        Matrix.mulVec (matOfFlat (survCode (ErasureCode.new k m t) es) k k)
          (fun c => toGF ((data.getD c.val []).getD p 0)) r' := by
    intro r' p hp
    have hr'sel : r'.val < sel'.length := by
      have h1 := r'.isLt
      omega
    rw [getD_map_getD sel' _ hr'sel 0 []]
    have hsrtake : sel'.getD r'.val 0 = (selIdx (k + m) k es).getD r'.val 0 :=
      ((getD_take r'.isLt 0 : (sel'.take k).getD r'.val 0 = sel'.getD r'.val 0)).symm
    rw [hsrtake]
    have hsrmem : (selIdx (k + m) k es).getD r'.val 0 ∈ selIdx (k + m) k es := by
      rw [List.getD_eq_getElem _ 0 (show r'.val < (selIdx (k + m) k es).length by
        rw [hselL]; exact r'.isLt)]
      exact List.getElem_mem _
    have hsrlt : (selIdx (k + m) k es).getD r'.val 0 < k + m := selIdx_mem_lt hsrmem
    have hsrcont : es.contains ((selIdx (k + m) k es).getD r'.val 0) = false :=
      selIdx_not_erased hsrmem
    rw [hagree2 _ hsrlt hsrcont]
    rw [stripe_mulVec k m L t data hk hdlen hdL hsrlt hp]
    rw [Matrix.mulVec, Matrix.mulVec, Matrix.dotProduct, Matrix.dotProduct]
    refine Finset.sum_congr rfl fun c _ => ?_
    dsimp only
    congr 1
    rw [matOfFlat_apply, matOfFlat_apply]
    rw [show (survCode (ErasureCode.new k m t) es).getD (r'.val * k + c.val) 0 =
        (ErasureCode.new k m t).encode_matrix.getD
          (k * ((selIdx (k + m) k es).getD r'.val 0) + c.val) 0 from
      survCode_getD _ es hmatlen hselL2 r'.isLt c.isLt]
    rw [Nat.mul_comm k ((selIdx (k + m) k es).getD r'.val 0)]
  -- each reconstructed byte equals the original byte of the erased block
  have hout_byte : ∀ (r : Nat), r < es.length → ∀ (p : Nat), p < L →
      ((ec.encode_data L k es.length tbl.table
          (sel'.map fun j => (data' ++ code').getD j [])).getD r []).getD p 0 =
        ((data ++ (ErasureCode.new k m t).encode_impl data).getD
          (es.getD r 0) []).getD p 0 := by
    intro r hr p hp
    have hemem : es.getD r 0 ∈ es := by
      rw [List.getD_eq_getElem _ 0 hr]
      exact List.getElem_mem _
    have helt : es.getD r 0 < k + m := hesmem _ hemem
    have htblent : ∀ i : Fin k, tbl.table.getD (r * k + i.val) 0 =
        (dmatRow (ErasureCode.new k m t) invm (es.getD r 0)).getD i.val 0 := by
      intro i
      rw [htbl, new_k]
      exact (show ((dmat (ErasureCode.new k m t) es invm).take (k * es.length)).getD
          (r * k + i.val) 0 =
        (dmatRow (ErasureCode.new k m t) invm (es.getD r 0)).getD i.val 0 from
        dmat_take_getD (ErasureCode.new k m t) es invm hinvlen hble hr i.isLt)
    have houtlt : ((ec.encode_data L k es.length tbl.table
        (sel'.map fun j => (data' ++ code').getD j [])).getD r []).getD p 0 < 256 := by
      rw [ec.encode_data, getD_map_range _ hr, getD_map_range _ hp]
      exact foldl_xor_lt _ fun x _ => gf_mul_lt _ _
    have horiglt : ((data ++ (ErasureCode.new k m t).encode_impl data).getD
        (es.getD r 0) []).getD p 0 < 256 := by
      rcases Nat.lt_or_ge (es.getD r 0) k with hek | hek
      · rw [getD_append_left (show es.getD r 0 < data.length by omega) []]
        exact block_byte_lt hbytes _ p
      · rw [getD_append_right (show data.length ≤ es.getD r 0 by omega) []]
        exact encode_impl_byte_lt _ data _ p
    refine toGF_inj houtlt horiglt ?_
    rw [ec.encode_data, getD_map_range _ hr, getD_map_range _ hp, toGF_foldl_xor]
    rcases Nat.lt_or_ge (es.getD r 0) k with hek | hek
    · have hrowS : ∀ i : Fin k,
          (dmatRow (ErasureCode.new k m t) invm (es.getD r 0)).getD i.val 0 =
            invm.getD (es.getD r 0 * k + i.val) 0 := by
        intro i
        unfold dmatRow
        rw [source_num_def, new_k, if_pos hek, getD_take i.isLt, getD_drop,
          Nat.mul_comm k (es.getD r 0)]
      have hA : (∑ i : Fin k, toGF (gf.mul (tbl.table.getD (r * k + i.val) 0)
            (((sel'.map fun j => (data' ++ code').getD j []).getD i.val []).getD p 0))) =
          ∑ i : Fin k, matOfFlat invm k k ⟨es.getD r 0, hek⟩ i *
            Matrix.mulVec (matOfFlat (survCode (ErasureCode.new k m t) es) k k)
              (fun c => toGF ((data.getD c.val []).getD p 0)) i := by
        refine Finset.sum_congr rfl fun i _ => ?_
        rw [toGF_mul, htblent i, hrowS i, hsurv_byte i p hp, matOfFlat_apply]
      have hB : (∑ i : Fin k, matOfFlat invm k k ⟨es.getD r 0, hek⟩ i *
            Matrix.mulVec (matOfFlat (survCode (ErasureCode.new k m t) es) k k)
              (fun c => toGF ((data.getD c.val []).getD p 0)) i) =
          toGF (((data ++ (ErasureCode.new k m t).encode_impl data).getD
            (es.getD r 0) []).getD p 0) := by
        have h1 : (∑ i : Fin k, matOfFlat invm k k ⟨es.getD r 0, hek⟩ i *
              Matrix.mulVec (matOfFlat (survCode (ErasureCode.new k m t) es) k k)
                (fun c => toGF ((data.getD c.val []).getD p 0)) i) =
            Matrix.mulVec (matOfFlat invm k k *
                matOfFlat (survCode (ErasureCode.new k m t) es) k k)
              (fun c => toGF ((data.getD c.val []).getD p 0)) ⟨es.getD r 0, hek⟩ := by
          rw [← Matrix.mulVec_mulVec]
          rfl
        rw [h1, hBS, Matrix.one_mulVec,
          getD_append_left (show es.getD r 0 < data.length by omega) []]
      exact hA.trans hB
    · have hrowP : ∀ i : Fin k,
          toGF ((dmatRow (ErasureCode.new k m t) invm (es.getD r 0)).getD i.val 0) =
            ∑ j : Fin k, matOfFlat invm k k j i *
              matOfFlat (ErasureCode.new k m t).encode_matrix (k + m) k
                ⟨es.getD r 0, helt⟩ j := by
        intro i
        unfold dmatRow
        rw [source_num_def, block_num_def, new_k, new_m,
          if_neg (show ¬ es.getD r 0 < k by omega),
          if_pos (show es.getD r 0 < k + m from helt),
          getD_map_range _ i.isLt, toGF_foldl_xor]
        refine Finset.sum_congr rfl fun j _ => ?_
        rw [toGF_mul, matOfFlat_apply, matOfFlat_apply, Nat.mul_comm k (es.getD r 0)]
      have hinner : ∀ j : Fin k, (∑ i : Fin k, matOfFlat invm k k j i *
            Matrix.mulVec (matOfFlat (survCode (ErasureCode.new k m t) es) k k)
              (fun c => toGF ((data.getD c.val []).getD p 0)) i) =
          toGF ((data.getD j.val []).getD p 0) := by
        intro j
        have h3 : (∑ i : Fin k, matOfFlat invm k k j i *
              Matrix.mulVec (matOfFlat (survCode (ErasureCode.new k m t) es) k k)
                (fun c => toGF ((data.getD c.val []).getD p 0)) i) =
            Matrix.mulVec (matOfFlat invm k k *
                matOfFlat (survCode (ErasureCode.new k m t) es) k k)
              (fun c => toGF ((data.getD c.val []).getD p 0)) j := by
          rw [← Matrix.mulVec_mulVec]
          rfl
        rw [h3, hBS, Matrix.one_mulVec]
      have hA : (∑ i : Fin k, toGF (gf.mul (tbl.table.getD (r * k + i.val) 0)
            (((sel'.map fun j => (data' ++ code').getD j []).getD i.val []).getD p 0))) =
          ∑ i : Fin k, (∑ j : Fin k, matOfFlat invm k k j i *
              matOfFlat (ErasureCode.new k m t).encode_matrix (k + m) k
                ⟨es.getD r 0, helt⟩ j) *
            Matrix.mulVec (matOfFlat (survCode (ErasureCode.new k m t) es) k k)
              (fun c => toGF ((data.getD c.val []).getD p 0)) i := by
        refine Finset.sum_congr rfl fun i _ => ?_
        rw [toGF_mul, htblent i, hrowP i, hsurv_byte i p hp]
      have hB : (∑ i : Fin k, (∑ j : Fin k, matOfFlat invm k k j i *
              matOfFlat (ErasureCode.new k m t).encode_matrix (k + m) k
                ⟨es.getD r 0, helt⟩ j) *
            Matrix.mulVec (matOfFlat (survCode (ErasureCode.new k m t) es) k k)
              (fun c => toGF ((data.getD c.val []).getD p 0)) i) =
          toGF (((data ++ (ErasureCode.new k m t).encode_impl data).getD
            (es.getD r 0) []).getD p 0) := by
        calc (∑ i : Fin k, (∑ j : Fin k, matOfFlat invm k k j i *
                matOfFlat (ErasureCode.new k m t).encode_matrix (k + m) k
                  ⟨es.getD r 0, helt⟩ j) *
              Matrix.mulVec (matOfFlat (survCode (ErasureCode.new k m t) es) k k)
                (fun c => toGF ((data.getD c.val []).getD p 0)) i)
            = ∑ i : Fin k, ∑ j : Fin k, (matOfFlat invm k k j i *
                matOfFlat (ErasureCode.new k m t).encode_matrix (k + m) k
                  ⟨es.getD r 0, helt⟩ j) *
              Matrix.mulVec (matOfFlat (survCode (ErasureCode.new k m t) es) k k)
                (fun c => toGF ((data.getD c.val []).getD p 0)) i := by
              refine Finset.sum_congr rfl fun i _ => ?_
              rw [Finset.sum_mul]
          _ = ∑ j : Fin k, ∑ i : Fin k, (matOfFlat invm k k j i *
                matOfFlat (ErasureCode.new k m t).encode_matrix (k + m) k
                  ⟨es.getD r 0, helt⟩ j) *
              Matrix.mulVec (matOfFlat (survCode (ErasureCode.new k m t) es) k k)
                (fun c => toGF ((data.getD c.val []).getD p 0)) i := Finset.sum_comm
          _ = ∑ j : Fin k, matOfFlat (ErasureCode.new k m t).encode_matrix (k + m) k
                  ⟨es.getD r 0, helt⟩ j *
                ∑ i : Fin k, matOfFlat invm k k j i *
                  Matrix.mulVec (matOfFlat (survCode (ErasureCode.new k m t) es) k k)
                    (fun c => toGF ((data.getD c.val []).getD p 0)) i := by
              refine Finset.sum_congr rfl fun j _ => ?_
              rw [Finset.mul_sum]
              refine Finset.sum_congr rfl fun i _ => ?_
              ring
          _ = ∑ j : Fin k, matOfFlat (ErasureCode.new k m t).encode_matrix (k + m) k
                  ⟨es.getD r 0, helt⟩ j * toGF ((data.getD j.val []).getD p 0) := by
              refine Finset.sum_congr rfl fun j _ => ?_
              rw [hinner j]
          _ = Matrix.mulVec (matOfFlat (ErasureCode.new k m t).encode_matrix (k + m) k)
                (fun c => toGF ((data.getD c.val []).getD p 0)) ⟨es.getD r 0, helt⟩ := rfl
          _ = toGF (((data ++ (ErasureCode.new k m t).encode_impl data).getD
                (es.getD r 0) []).getD p 0) :=
              (stripe_mulVec k m L t data hk hdlen hdL helt hp).symm
      exact hA.trans hB
  -- each reconstructed row equals the original erased block
  have hout_block : ∀ (r : Nat), r < es.length →
      (ec.encode_data L k es.length tbl.table
          (sel'.map fun j => (data' ++ code').getD j [])).getD r [] =
        (data ++ (ErasureCode.new k m t).encode_impl data).getD (es.getD r 0) [] := by
    intro r hr
    have hemem : es.getD r 0 ∈ es := by
      rw [List.getD_eq_getElem _ 0 hr]
      exact List.getElem_mem _
    have helt : es.getD r 0 < k + m := hesmem _ hemem
    have hlen1 : ((ec.encode_data L k es.length tbl.table
        (sel'.map fun j => (data' ++ code').getD j [])).getD r []).length = L := by
      rw [ec.encode_data, getD_map_range _ hr, List.length_map, List.length_range]
    have hlen2 : ((data ++ (ErasureCode.new k m t).encode_impl data).getD
        (es.getD r 0) []).length = L := by
      rcases Nat.lt_or_ge (es.getD r 0) k with hek | hek
      · rw [getD_append_left (show es.getD r 0 < data.length by omega) [],
          List.getD_eq_getElem _ _ (show es.getD r 0 < data.length by omega)]
        exact hdL _ (List.getElem_mem _)
      · rw [getD_append_right (show data.length ≤ es.getD r 0 by omega) []]
        rw [encode_impl_getD_length _ data (show es.getD r 0 - data.length <
          (ErasureCode.new k m t).m from by rw [new_m]; omega)]
        exact hhead
    refine List.ext_getElem (by rw [hlen1, hlen2]) ?_
    intro p h1 h2
    have hp : p < L := by rw [hlen1] at h1; exact h1
    have hb := hout_byte r hr p hp
    rw [List.getD_eq_getElem _ 0 h1, List.getD_eq_getElem _ 0 h2] at hb
    exact hb
  -- assemble the final buffers
  have hres : (ErasureCode.new k m t).decode data' code' E =
      (.ok (), ((ErasureCode.new k m t).decode_impl data' code' tbl.table es).1,
        ((ErasureCode.new k m t).decode_impl data' code' tbl.table es).2) := by
    simp only [ErasureCode.decode, hce, hcb, hmt]
  rw [hres]
  refine ⟨?_, ?_⟩
  · show ((ErasureCode.new k m t).decode_impl data' code' tbl.table es).1 = data
    simp only [ErasureCode.decode_impl]
    rw [new_k, hhead', hsrc]
    refine List.ext_getElem (by rw [List.length_mapIdx]; omega) ?_
    intro i h1 h2
    have hik : i < k := by rwa [hdlen] at h2
    rw [List.getElem_mapIdx]
    by_cases hci : es.contains i = true
    · rw [if_pos hci]
      have hmemi : i ∈ es := contains_iff_mem.mp hci
      obtain ⟨⟨r, hr⟩, hrget⟩ := List.mem_iff_get.mp hmemi
      have hgetD : es.getD r 0 = i := by
        rw [List.getD_eq_getElem _ 0 hr]
        exact hrget
      have hranki : ((List.range i).filter fun j => es.contains j).length = r := by
        rw [← hgetD]
        exact hrank r hr
      rw [hranki, hout_block r hr, hgetD,
        getD_append_left (show i < data.length by omega) []]
      exact List.getD_eq_getElem _ _ h2
    · rw [if_neg hci]
      have hcf : es.contains i = false := by
        cases hcb2 : es.contains i
        · rfl
        · exact absurd hcb2 hci
      have hagr := hagree2 i (by omega) hcf
      rw [getD_append_left (show i < data'.length by omega) [],
        getD_append_left (show i < data.length by omega) []] at hagr
      rw [← List.getD_eq_getElem data' [] (show i < data'.length by omega),
        ← List.getD_eq_getElem data [] h2]
      exact hagr
  · show ((ErasureCode.new k m t).decode_impl data' code' tbl.table es).2 =
      (ErasureCode.new k m t).encode_impl data
    simp only [ErasureCode.decode_impl]
    rw [new_k, hhead', hsrc, hd'len]
    refine List.ext_getElem
      (by rw [List.length_mapIdx, hc'len, encode_impl_length, new_m]) ?_
    intro i h1 h2
    have him : i < m := by rw [List.length_mapIdx, hc'len] at h1; exact h1
    rw [List.getElem_mapIdx]
    by_cases hci : es.contains (k + i) = true
    · rw [if_pos hci]
      have hmemi : k + i ∈ es := contains_iff_mem.mp hci
      obtain ⟨⟨r, hr⟩, hrget⟩ := List.mem_iff_get.mp hmemi
      have hgetD : es.getD r 0 = k + i := by
        rw [List.getD_eq_getElem _ 0 hr]
        exact hrget
      have hranki : ((List.range (k + i)).filter fun j => es.contains j).length = r := by
        rw [← hgetD]
        exact hrank r hr
      rw [hranki, hout_block r hr, hgetD,
        getD_append_right (show data.length ≤ k + i by omega) [], hdlen]
      have harith : k + i - k = i := by omega
      rw [harith]
      exact List.getD_eq_getElem _ _ h2
    · rw [if_neg hci]
      have hcf : es.contains (k + i) = false := by
        cases hcb2 : es.contains (k + i)
        · rfl
        · exact absurd hcb2 hci
      have hagr := hagree2 (k + i) (by omega) hcf
      rw [getD_append_right (show data'.length ≤ k + i by omega) [],
        getD_append_right (show data.length ≤ k + i by omega) [], hd'len, hdlen] at hagr
      have harith : k + i - k = i := by omega
      rw [harith] at hagr
      rw [← List.getD_eq_getElem code' [] (show i < code'.length by omega),
        ← List.getD_eq_getElem ((ErasureCode.new k m t).encode_impl data) [] h2]
      exact hagr

/-- Counterexample to C1 as stated: for the Reed-Solomon engine with k = 4,
m = 22 and the (size-m, in-range) erasure set leaving survivor rows
{1, 4, 15, 25}, the survivor submatrix is singular, so decode does not
reconstruct the erased blocks: although the buffers agree with the original
stripe outside the erasure set, decode returns `InternalError` and leaves the
corrupted buffers unchanged (data block 0 still reads 0 instead of 1). -/
theorem C1_counterexample :
    ((List.range 26).filter fun i => ¬ i ∈ ([1, 4, 15, 25] : List Nat)).length = 22 ∧
      (∀ i, i < 26 →
        i ∉ (List.range 26).filter (fun i => ¬ i ∈ ([1, 4, 15, 25] : List Nat)) →
        (([[0], [2], [0], [0]] : List Block) ++
            ((List.range 22).map fun j => if j = 0 ∨ j = 11 ∨ j = 21 then
              ((ErasureCode.new 4 22 .ReedSolomon).encode_impl
                [[1], [2], [3], [4]]).getD j [] else [0])).getD i [] =
          (([[1], [2], [3], [4]] : List Block) ++
            (ErasureCode.new 4 22 .ReedSolomon).encode_impl
              [[1], [2], [3], [4]]).getD i []) ∧
      (ErasureCode.new 4 22 .ReedSolomon).decode [[0], [2], [0], [0]]
          ((List.range 22).map fun j => if j = 0 ∨ j = 11 ∨ j = 21 then
            ((ErasureCode.new 4 22 .ReedSolomon).encode_impl
              [[1], [2], [3], [4]]).getD j [] else [0])
          ((List.range 26).filter fun i => ¬ i ∈ ([1, 4, 15, 25] : List Nat)) =
        (.error (.InternalError "fail to invert matrix"), [[0], [2], [0], [0]],
          (List.range 22).map fun j => if j = 0 ∨ j = 11 ∨ j = 21 then
            ((ErasureCode.new 4 22 .ReedSolomon).encode_impl
              [[1], [2], [3], [4]]).getD j [] else [0]) ∧
      ([[0], [2], [0], [0]] : List Block) ≠ [[1], [2], [3], [4]] := by
  refine ⟨by rfl, by decide, by rfl, by decide⟩

/-- Witness for C1: the Cauchy (2, 1) engine with data [[5], [9]], erasure set
{0} and a corrupted first block recovers the stripe exactly. -/
theorem C1_witness :
    ((ErasureCode.new 2 1 .Cauchy).decode [[77], [9]]
        ((ErasureCode.new 2 1 .Cauchy).encode_impl [[5], [9]]) [0]).1 = Except.ok () ∧
      ((ErasureCode.new 2 1 .Cauchy).decode [[77], [9]]
          ((ErasureCode.new 2 1 .Cauchy).encode_impl [[5], [9]]) [0]).2.1 = [[5], [9]] ∧
      ((ErasureCode.new 2 1 .Cauchy).decode [[77], [9]]
          ((ErasureCode.new 2 1 .Cauchy).encode_impl [[5], [9]]) [0]).2.2 =
        (ErasureCode.new 2 1 .Cauchy).encode_impl [[5], [9]] := by
  have h := C1_decode_roundtrip 2 1 1 .Cauchy (by norm_num) [[5], [9]] [[77], [9]]
    ((ErasureCode.new 2 1 .Cauchy).encode_impl [[5], [9]]) [0]
    (by rfl) (by decide) (by decide) (by rfl) (by rfl) (by decide) (by decide)
    (by decide) (by rfl)
  exact ⟨by rfl, h.1, h.2⟩
